import Mathlib

/-!
Verification of the crawl/scoring core of the site-audit tool.

The Python sources under `src/` are shallowly embedded: pure functions become
Lean functions, the stateful crawl loop becomes explicit state passing, Python
floats are modelled as exact rationals (`ℚ`), Python dicts (which preserve
insertion order) are modelled as association lists with insert-or-overwrite
semantics, and external collaborators (the HTTP session, `hashlib.md5`,
BeautifulSoup text extraction, the thread pool's completion order) are
parameters of the embedded functions.
-/

namespace SiteAudit

/-! ## Python string primitives -/

/-- ASCII whitespace recognised by Python's `str.strip()` and the regex `\s`. -/
def isPyWs (c : Char) : Bool :=
  c = ' ' ∨ c = '\t' ∨ c = '\n' ∨ c = '\x0d' ∨ c = '\x0b' ∨ c = '\x0c'

/-- Strip leading and trailing whitespace from a character list (`str.strip()`). -/
def stripCharsList (l : List Char) : List Char :=
  ((l.dropWhile isPyWs).reverse.dropWhile isPyWs).reverse

/-- Model of Python `str.strip()`. -/
def pyStrip (s : String) : String :=
  ⟨stripCharsList s.toList⟩

/-- Replace every maximal run of whitespace by a single space
(`re.sub(r"\s+", " ", text)`).  The boolean flag records whether the
previous character belonged to a whitespace run. -/
def collapseAux : Bool → List Char → List Char
  | _, [] => []
  | prevWs, c :: cs =>
    if isPyWs c then
      if prevWs then collapseAux true cs
      else ' ' :: collapseAux true cs
    else c :: collapseAux false cs

/-- Model of `re.sub(r"\s+", " ", text).strip()` as used by the parser. -/
def normalizeWs (s : String) : String :=
  ⟨stripCharsList (collapseAux false s.toList)⟩

/-- Model of Python `str.lower()` (ASCII case folding). -/
def pyLower (s : String) : String :=
  ⟨s.toList.map Char.toLower⟩

/-- Model of Python `str.startswith(prefix)`. -/
def pyStartswith (s pre : String) : Bool :=
  pre.toList.isPrefixOf s.toList

/-! ## URL model (Python `urllib.parse` as used by the sources) -/

/-- The components produced by `urllib.parse.urlparse` that the sources use.
Path parameters (`;params`) are not modelled: the sources never read them and
`_normalize_url` rebuilds URLs with empty params. -/
structure UrlParts where
  scheme : String
  netloc : String
  path : String
  query : String
  fragment : String
deriving Repr, DecidableEq

/-- Characters allowed in a URL scheme (`urllib.parse.scheme_chars`). -/
def isSchemeChar (c : Char) : Bool :=
  c.isAlpha ∨ c.isDigit ∨ c = '+' ∨ c = '-' ∨ c = '.'

/-- Split off `scheme:` as `urlsplit` does: the text before the first colon is
a scheme when it is nonempty, begins with an ASCII letter and contains scheme
characters only; the scheme is lower-cased. -/
def splitScheme (l : List Char) : String × List Char :=
  match l.findIdx? (fun c => c = ':') with
  | none => ("", l)
  | some i =>
    let pre := l.take i
    match pre with
    | [] => ("", l)
    | c :: _ =>
      if c.isAlpha ∧ pre.all isSchemeChar then
        (⟨pre.map Char.toLower⟩, l.drop (i + 1))
      else ("", l)

/-- Split off `//netloc` as `urlsplit` does: only when the remainder starts
with `//`; the netloc extends to the next `/`, `?` or `#`. -/
def splitNetloc (l : List Char) : String × List Char :=
  match l with
  | '/' :: '/' :: rest =>
    let netloc := rest.takeWhile (fun c => ¬(c = '/' ∨ c = '?' ∨ c = '#'))
    (⟨netloc⟩, rest.drop netloc.length)
  | _ => ("", l)

/-- Split a character list at the first occurrence of `ch`; the second
component is empty when `ch` does not occur. -/
def splitAtFirst (l : List Char) (ch : Char) : List Char × List Char :=
  match l.findIdx? (fun c => c = ch) with
  | none => (l, [])
  | some i => (l.take i, l.drop (i + 1))

/-- Model of `urllib.parse.urlsplit` (no params splitting). -/
def pyUrlsplit (s : String) : UrlParts :=
  let (scheme, rest) := splitScheme s.toList
  let (netloc, rest) := splitNetloc rest
  let (rest, fragment) := splitAtFirst rest '#'
  let (path, query) := splitAtFirst rest '?'
  { scheme := scheme, netloc := netloc,
    path := ⟨path⟩, query := ⟨query⟩, fragment := ⟨fragment⟩ }

/-- Model of `urllib.parse.urlunsplit` restricted to an empty fragment, as
`_normalize_url` uses it (it passes `""` for params and fragment). -/
def pyUrlunsplitNoFrag (scheme netloc path query : String) : String :=
  let url :=
    if netloc ≠ "" ∨ pyStartswith path "//" then
      let p := if path ≠ "" ∧ ¬pyStartswith path "/" then "/" ++ path else path
      "//" ++ netloc ++ p
    else path
  let url := if scheme ≠ "" then scheme ++ ":" ++ url else url
  if query ≠ "" then url ++ "?" ++ query else url

/-- Model of Python `str.endswith`. -/
def pyEndswith (s suf : String) : Bool :=
  suf.toList.isSuffixOf s.toList

/-- Drop the last `n` characters of a string (`s[:-n]`). -/
def dropRightChars (s : String) (n : Nat) : String :=
  ⟨s.toList.take (s.toList.length - n)⟩

/-- Model of Python `str.rstrip("/")`: remove all trailing slashes. -/
def rstripSlash (s : String) : String :=
  ⟨((s.toList.reverse.dropWhile (fun c => c = '/'))).reverse⟩

/-- Embedding of `crawler._normalize_url`: lowercase scheme and host, strip
the fragment, strip default ports, strip trailing slashes from non-root
paths; non-http(s) or netloc-less URLs normalise to `""`. -/
def normalizeUrl (url : String) : String :=
  let p := pyUrlsplit (pyStrip url)
  if ¬(p.scheme = "http" ∨ p.scheme = "https") then ""
  else if p.netloc = "" then ""
  else
    let host := pyLower p.netloc
    let host := if pyEndswith host ":80" ∧ p.scheme = "http" then dropRightChars host 3 else host
    let host := if pyEndswith host ":443" ∧ p.scheme = "https" then dropRightChars host 4 else host
    let path := if p.path ≠ "/" ∧ pyEndswith p.path "/" then rstripSlash p.path else p.path
    pyUrlunsplitNoFrag p.scheme host path p.query

/-- The URL's path component, defaulting to `/` (`parsed.path or "/"` in
`robots.is_url_allowed`). -/
def urlPathOrRoot (url : String) : String :=
  let p := pyUrlsplit url
  if p.path = "" then "/" else p.path

/-- Rebuild a URL from all five modelled components (`urlunsplit`). -/
def pyUrlunsplit (u : UrlParts) : String :=
  let base := pyUrlunsplitNoFrag u.scheme u.netloc u.path u.query
  if u.fragment ≠ "" then base ++ "#" ++ u.fragment else base

/-- Model of Python `str.split(ch)` (single-character separator). -/
def pySplitCharAux (ch : Char) : List Char → List Char → List String
  | acc, [] => [⟨acc.reverse⟩]
  | acc, c :: cs =>
    if c = ch then ⟨acc.reverse⟩ :: pySplitCharAux ch [] cs
    else pySplitCharAux ch (c :: acc) cs

/-- Model of Python `str.split(ch)`. -/
def pySplitChar (s : String) (ch : Char) : List String :=
  pySplitCharAux ch [] s.toList

/-- Resolve `..` and `.` segments as `urljoin` does. -/
def resolveSegments (segs : List String) : List String :=
  let res := segs.foldl
    (fun acc seg =>
      if seg = ".." then acc.dropLast
      else if seg = "." then acc
      else acc ++ [seg])
    []
  match segs.getLast? with
  | some s => if s = "." ∨ s = ".." then res ++ [""] else res
  | none => res

/-- Model of `urllib.parse.urljoin` for the http(s) cases the fetcher
exercises (absolute targets, scheme-relative, root-relative and relative
`Location` values). -/
def pyUrljoin (base url : String) : String :=
  if base = "" then url
  else if url = "" then base
  else
    let b := pyUrlsplit base
    let u := pyUrlsplit url
    let scheme := if u.scheme = "" then b.scheme else u.scheme
    if scheme ≠ b.scheme then url
    else if u.netloc ≠ "" then pyUrlunsplit { u with scheme := scheme }
    else
      let netloc := b.netloc
      if u.path = "" then
        let query := if u.query = "" then b.query else u.query
        pyUrlunsplit { scheme := scheme, netloc := netloc, path := b.path,
                       query := query, fragment := u.fragment }
      else
        let baseParts := pySplitChar b.path '/'
        let baseParts := if baseParts.getLast? = some "" then baseParts else baseParts.dropLast
        let urlParts := pySplitChar u.path '/'
        let segments :=
          if pyStartswith u.path "/" then urlParts
          else
            let s := baseParts ++ urlParts
            match s with
            | [] => []
            | first :: rest =>
              match rest.getLast? with
              | none => [first]
              | some last => first :: ((rest.dropLast.filter (fun x => x ≠ "")) ++ [last])
        let joined := "/".intercalate (resolveSegments segments)
        let path := if joined = "" then "/" else joined
        pyUrlunsplit { scheme := scheme, netloc := netloc, path := path,
                       query := u.query, fragment := u.fragment }

/-! ## Parser content step (`src/crawler/parser.py`, `_parse_content`) -/

/-- The fields of `PageData` written by `_parse_content`. -/
structure ContentResult where
  text_content : String
  word_count : Nat
  content_hash : String
deriving Repr, DecidableEq

/-- Embedding of `parser._parse_content` applied to the visible text that
BeautifulSoup extracted (script/style/nav/footer/header already removed and
joined with single-space separators).  `md5hex` is the external
`hashlib.md5(...).hexdigest()` function, passed as a parameter. -/
def parseContentStep (md5hex : String → String) (extractedText : String) : ContentResult :=
  let text := normalizeWs extractedText
  { text_content := text
    word_count := if text = "" then 0 else ((text.splitOn " ").filter (· ≠ "")).length
    content_hash := md5hex (pyLower text) }

/-! ## Robots gate (`src/crawler/robots.py`) -/

/-- One `{agent, path}` rule dict from `RobotsData.allow_rules` /
`disallow_rules`. -/
structure RobotsRule where
  agent : String
  path : String
deriving Repr, DecidableEq

/-- The fields of `models.RobotsData` that `_parse_robots` and
`is_url_allowed` touch.  `exists_` models the Python attribute `exists`
(a Lean keyword). -/
structure RobotsModel where
  exists_ : Bool
  disallow_rules : List RobotsRule := []
  allow_rules : List RobotsRule := []
  parse_errors : List String := []
  sitemap_urls : List String := []
  crawl_delay : Option ℚ := none
deriving Repr, DecidableEq

/-- Convert a digit run to a natural number. -/
def digitsToNat (l : List Char) : Nat :=
  l.foldl (fun n c => 10 * n + (c.toNat - 48)) 0

/-- Modelled approximation of Python `float(value)` on decimal literals:
optional sign, integer digits, optional fractional digits.  `none` models
the `ValueError` branch. -/
def pyFloatParse (s : String) : Option ℚ :=
  let l := s.toList
  let sign : ℚ × List Char :=
    match l with
    | '-' :: rest => (-1, rest)
    | '+' :: rest => (1, rest)
    | _ => (1, l)
  let intPart := sign.2.takeWhile Char.isDigit
  let rest := sign.2.drop intPart.length
  match rest with
  | [] => if intPart = [] then none else some (sign.1 * digitsToNat intPart)
  | '.' :: frac =>
    if frac.all Char.isDigit ∧ (intPart ≠ [] ∨ frac ≠ []) then
      some (sign.1 * ((digitsToNat intPart : ℚ) + (digitsToNat frac : ℚ) / 10 ^ frac.length))
    else none
  | _ => none

/-- The mutable parser state of `_parse_robots`: the current agent group,
the "inside an agent block" flag, and the `RobotsData` being filled. -/
structure RobotsParseState where
  current_agents : List String
  in_agent_block : Bool
  data : RobotsModel

/-- Embedding of one iteration of the `_parse_robots` line loop. -/
def robotsStep (s : RobotsParseState) (raw_line : String) : RobotsParseState :=
  let line := pyStrip raw_line
  if line = "" ∨ pyStartswith line "#" then
    if line = "" ∧ s.in_agent_block then
      { s with current_agents := [], in_agent_block := false }
    else s
  else if ¬ line.toList.contains ':' then
    { s with data.parse_errors :=
        s.data.parse_errors ++ ["Invalid line (no colon): " ++ line] }
  else
    let parts := splitAtFirst line.toList ':'
    let directive := pyLower (pyStrip ⟨parts.1⟩)
    let value := pyStrip ⟨parts.2⟩
    if directive = "user-agent" then
      let s' := if ¬ s.in_agent_block then
          { s with current_agents := [], in_agent_block := true }
        else s
      { s' with current_agents := s'.current_agents ++ [value] }
    else if directive = "disallow" then
      { s with in_agent_block := true,
               data.disallow_rules :=
                 s.data.disallow_rules
                   ++ s.current_agents.map (fun a => ⟨a, value⟩) }
    else if directive = "allow" then
      { s with in_agent_block := true,
               data.allow_rules :=
                 s.data.allow_rules
                   ++ s.current_agents.map (fun a => ⟨a, value⟩) }
    else if directive = "crawl-delay" then
      match pyFloatParse value with
      | some q => { s with data.crawl_delay := some q }
      | none => { s with data.parse_errors :=
          s.data.parse_errors ++ ["Invalid crawl-delay value: " ++ value] }
    else if directive = "sitemap" then
      if value ≠ "" then
        { s with data.sitemap_urls := s.data.sitemap_urls ++ [value] }
      else s
    else s

/-- Embedding of `_parse_robots` applied to `raw_text` (lines model Python
`str.splitlines()` via a newline split; the possible final empty line is a
blank line and leaves the collected data unchanged). -/
def parseRobotsText (raw_text : String) : RobotsModel :=
  ((pySplitChar raw_text '\n').foldl robotsStep
    { current_agents := [], in_agent_block := false, data := { exists_ := true } }).data

/-- Embedding of `robots.is_url_allowed`. -/
def isUrlAllowed (url : String) (rd : RobotsModel) (user_agent : String) : Bool :=
  if ¬ rd.exists_ then true
  else
    let path := urlPathOrRoot url
    let agents_to_check := [pyLower user_agent, "*"]
    let allows := (rd.allow_rules.filter
        (fun r => agents_to_check.contains (pyLower r.agent))).map (·.path)
    let disallows := (rd.disallow_rules.filter
        (fun r => agents_to_check.contains (pyLower r.agent))).map (·.path)
    let best_allow_len := allows.foldl
      (fun best p =>
        if pyStartswith path p ∧ (p.toList.length : ℤ) > best then (p.toList.length : ℤ)
        else best) (-1)
    let best_disallow_len := disallows.foldl
      (fun best p =>
        if p ≠ "" ∧ pyStartswith path p ∧ (p.toList.length : ℤ) > best then (p.toList.length : ℤ)
        else best) (-1)
    if best_disallow_len < 0 then true
    else best_allow_len ≥ best_disallow_len

/-- The robots matching rule as the specification words it: over the rules
declared for the agent's lowercase name or `*` (empty Disallow paths
excluded), take the longest matching Allow and Disallow prefixes of the
URL's path; allowed when no Disallow matches, otherwise allowed iff the
longest Allow match is at least as long as the longest Disallow match. -/
def specRobotsAllowed (url : String) (rd : RobotsModel) (user_agent : String) : Bool :=
  let path := urlPathOrRoot url
  let agents := [pyLower user_agent, "*"]
  let allowLens := ((rd.allow_rules.filter
      (fun r => agents.contains (pyLower r.agent))).map (·.path)
      |>.filter (fun p => pyStartswith path p)).map (fun p => (p.toList.length : ℤ))
  let disLens := ((rd.disallow_rules.filter
      (fun r => agents.contains (pyLower r.agent))).map (·.path)
      |>.filter (fun p => p ≠ "" ∧ pyStartswith path p)).map (fun p => (p.toList.length : ℤ))
  match disLens.max? with
  | none => true
  | some dmax =>
    match allowLens.max? with
    | none => false
    | some amax => amax ≥ dmax

/-- The concrete robots data of the precedence scenario:
`Disallow: /private` and `Allow: /private/public` for agent `*`. -/
def robotsPrecedenceExample : RobotsModel :=
  { exists_ := true
    disallow_rules := [⟨"*", "/private"⟩]
    allow_rules := [⟨"*", "/private/public"⟩] }

/-! ## Scoring (`src/scoring/scorer.py`, weights from `src/config.py`) -/

/-- Embedding of `models.Issue`. -/
structure Issue where
  url : String
  category : String
  issue_type : String
  severity : String
  description : String := ""
  recommendation : String := ""
  detail : String := ""
  affected_element : String := ""
deriving Repr, DecidableEq

/-- `config.SCORING_WEIGHTS`, in insertion order.  Python floats are
modelled as exact rationals. -/
def SCORING_WEIGHTS : List (String × ℚ) :=
  [("HTTP Issues", 18), ("Links", 15), ("Meta", 15), ("Technical SEO", 14),
   ("Content", 12), ("Performance", 10), ("Security", 8), ("Images", 5),
   ("Sitemap", 2), ("Robots", 1)]

/-- `scorer._TYPE_WEIGHT` with Python `dict.get(severity, 0.0)` semantics. -/
def typeWeight (severity : String) : ℚ :=
  if severity = "critical" then 12
  else if severity = "warning" then 4
  else if severity = "info" then 4/5
  else 0

/-- Round half to even on an exact rational, modelling Python `round` on the
value `round` receives. -/
def roundHalfEven (m : ℚ) : ℤ :=
  if m - ⌊m⌋ < 1/2 then ⌊m⌋
  else if 1/2 < m - ⌊m⌋ then ⌊m⌋ + 1
  else if Even ⌊m⌋ then ⌊m⌋ else ⌊m⌋ + 1

/-- Model of Python `round(q, d)` on exact rationals. -/
def pyRound (q : ℚ) (d : ℕ) : ℚ :=
  (roundHalfEven (q * 10 ^ d) : ℚ) / 10 ^ d

/-- Lookup in an insertion-ordered association list (a Python dict). -/
def alistLookup {β : Type} (m : List (String × β)) (k : String) : Option β :=
  match m with
  | [] => none
  | (k', v) :: rest => if k' = k then some v else alistLookup rest k

/-- Python `dict.setdefault(k, []).append(v)`: append `v` to the bucket of
`k`, creating the bucket at the end of the dict when absent. -/
def bucketAppend {β : Type} (m : List (String × List β)) (k : String) (v : β) :
    List (String × List β) :=
  match m with
  | [] => [(k, [v])]
  | (k', vs) :: rest =>
    if k' = k then (k', vs ++ [v]) :: rest
    else (k', vs) :: bucketAppend rest k v

/-- One iteration of the grouping loop in `compute_health_score`:
`by_cat.setdefault(category, {}).setdefault(issue_type, []).append(issue)`. -/
def groupInsert (m : List (String × List (String × List Issue))) (i : Issue) :
    List (String × List (String × List Issue)) :=
  match m with
  | [] => [(i.category, [(i.issue_type, [i])])]
  | (c, tm) :: rest =>
    if c = i.category then (c, bucketAppend tm i.issue_type i) :: rest
    else (c, tm) :: groupInsert rest i

/-- The `by_cat` nested grouping dict of `compute_health_score`. -/
def groupIssues (issues : List Issue) : List (String × List (String × List Issue)) :=
  issues.foldl groupInsert []

/-- The inner per-category grouping fold (by issue type). -/
def typeFold (l : List Issue) (tm₀ : List (String × List Issue)) :
    List (String × List Issue) :=
  l.foldl (fun tm i => bucketAppend tm i.issue_type i) tm₀

/-- Deduction contributed by one issue-type bucket: the severity base of the
first issue of the type, times the capped affected-page ratio. -/
def typeDeduction (n_pages : ℤ) (bucket : List Issue) : ℚ :=
  let severity := match bucket with | [] => "" | i :: _ => i.severity
  let base := typeWeight severity
  let affected_pages := ((bucket.map (fun i => i.url)).dedup).length
  let ratio := min 1 ((affected_pages : ℚ) / (n_pages : ℚ))
  base * ratio

/-- The `cat_deduction` accumulation over one category's type map. -/
def catDeduction (n_pages : ℤ) (type_map : List (String × List Issue)) : ℚ :=
  (type_map.map (fun b => typeDeduction n_pages b.2)).sum

/-- Embedding of `compute_health_score`: returns the rounded overall score
and the insertion-ordered `category_scores` dict as a pair. -/
def compute_health_score (issues : List Issue) (total_pages : ℤ) : ℚ × List (String × ℚ) :=
  if issues = [] then (100, SCORING_WEIGHTS.map (fun cw => (cw.1, cw.2)))
  else
    let n_pages := max total_pages 1
    let by_cat := groupIssues issues
    let steps := SCORING_WEIGHTS.map (fun cw =>
      let type_map := (alistLookup by_cat cw.1).getD []
      let capped := min (catDeduction n_pages type_map) cw.2
      (cw.1, pyRound (cw.2 - capped) 2, capped))
    let total := 100 - (steps.map (fun s => s.2.2)).sum
    let overall := max 0 (min 100 total)
    (pyRound overall 1, steps.map (fun s => (s.1, s.2.1)))

/-- Specification-side: the issues belonging to category `c`. -/
def issuesOfCat (issues : List Issue) (c : String) : List Issue :=
  issues.filter (fun i => i.category = c)

/-- Specification-side: the distinct issue types occurring in a list. -/
def specTypes (l : List Issue) : List String :=
  (l.map (fun i => i.issue_type)).dedup

/-- Specification-side deduction of one issue type within a category list:
per-severity base times `min 1 (distinct affected pages / total pages)`. -/
def specTypeDeduction (n : ℤ) (l : List Issue) (t : String) : ℚ :=
  let tl := l.filter (fun i => i.issue_type = t)
  typeWeight (match tl with | [] => "" | i :: _ => i.severity)
    * min 1 (((((tl.map (fun i => i.url)).dedup).length : ℚ)) / (n : ℚ))

/-- Specification-side per-category deduction: sum over the distinct issue
types of the category. -/
def specCatDeduction (n : ℤ) (issues : List Issue) (c : String) : ℚ :=
  ((specTypes (issuesOfCat issues c)).map
    (fun t => specTypeDeduction n (issuesOfCat issues c) t)).sum

/-- Specification-side capped per-category deduction. -/
def specCappedDeduction (n : ℤ) (issues : List Issue) (c : String) (w : ℚ) : ℚ :=
  min (specCatDeduction n issues c) w

/-- Specification-side sum of the capped per-category deductions. -/
def totalCappedDeduction (issues : List Issue) (total_pages : ℤ) : ℚ :=
  (SCORING_WEIGHTS.map
    (fun cw => specCappedDeduction (max total_pages 1) issues cw.1 cw.2)).sum

/-- The scoring model as the specification words it: overall score is
100 minus the capped per-category deductions, clamped to [0, 100] and
rounded to one decimal; each category score is its weight minus its capped
deduction, rounded to two decimals. -/
def specHealthScore (issues : List Issue) (total_pages : ℤ) : ℚ × List (String × ℚ) :=
  (pyRound (max 0 (min 100 (100 - totalCappedDeduction issues total_pages))) 1,
   SCORING_WEIGHTS.map (fun cw =>
     (cw.1, pyRound (cw.2 - specCappedDeduction (max total_pages 1) issues cw.1 cw.2) 2)))

/-- A critical `Meta` issue used by the concrete scoring scenarios. -/
def metaCritIssue (u : String) : Issue :=
  { url := u, category := "Meta", issue_type := "missing_title", severity := "critical" }

/-- The keys of `ts` not yet in `seen`, in first-occurrence order: the key
order produced by repeated `dict.setdefault`. -/
def newKeysAux (seen : List String) : List String → List String
  | [] => []
  | t :: ts => if t ∈ seen then newKeysAux seen ts else t :: newKeysAux (seen ++ [t]) ts

/-! ## Fetcher (`src/crawler/fetcher.py`) -/

/-- An HTTP response as the fetcher sees it.  The requests session is
modelled as a deterministic `server : String → MResponse` function from the
request URL to its response (the non-raising case; the exception branches
store the exception text and are orthogonal to the redirect claims). -/
structure MResponse where
  status_code : Nat
  headers : List (String × String) := []
  text : String := ""
deriving Repr, DecidableEq

/-- `requests` headers are case-insensitive: `headers.get(k, "")`. -/
def headerGet (hs : List (String × String)) (k : String) : String :=
  match hs.find? (fun p => pyLower p.1 = pyLower k) with
  | some p => p.2
  | none => ""

/-- `'location' in resp.headers` (case-insensitive key presence). -/
def headerHas (hs : List (String × String)) (k : String) : Bool :=
  (hs.find? (fun p => pyLower p.1 = pyLower k)).isSome

/-- `resp.is_redirect or resp.status_code in (301, 302, 303, 307, 308)`:
requests' `is_redirect` is "has a Location header and a redirect status". -/
def respIsRedirect (r : MResponse) : Bool :=
  (headerHas r.headers "location" ∧
      (r.status_code = 301 ∨ r.status_code = 302 ∨ r.status_code = 303 ∨
        r.status_code = 307 ∨ r.status_code = 308)) ∨
    (r.status_code = 301 ∨ r.status_code = 302 ∨ r.status_code = 303 ∨
      r.status_code = 307 ∨ r.status_code = 308)

/-- `fetcher._MAX_REDIRECTS`. -/
def MAX_REDIRECTS : Nat := 10

/-- What `_follow_redirects` communicates back to `fetch_page`: the final
response (with the URL it was requested from, since `Response.url` is the
request URL when redirects are not auto-followed), the redirect chain and
error fields written onto the `PageData`, plus a ghost counter of the
requests issued. -/
structure FollowResult where
  resp : Option MResponse
  resp_url : String
  redirect_chain : List String
  crawl_error : Option String
  error_status : Option Nat
  requests_made : Nat
deriving Repr, DecidableEq

/-- Embedding of the `_follow_redirects` loop.  The first `Nat` is the
remaining iterations of `for _ in range(_MAX_REDIRECTS)`; `seen_urls` and
the chain accumulate exactly as in the source; falling out of the loop (or
`break` on an empty Location) returns `resp = none` with NO error field
set. -/
def followRedirects (server : String → MResponse) :
    Nat → String → List String → List String → Nat → FollowResult
  | 0, _, _, chain, count =>
    { resp := none, resp_url := "", redirect_chain := chain,
      crawl_error := none, error_status := none, requests_made := count }
  | fuel + 1, current_url, seen_urls, chain, count =>
    let resp := server current_url
    if respIsRedirect resp then
      let location := headerGet resp.headers "location"
      if location = "" then
        { resp := none, resp_url := "", redirect_chain := chain,
          crawl_error := none, error_status := none, requests_made := count + 1 }
      else
        let next_url := pyUrljoin current_url location
        if next_url ∈ seen_urls ∨ next_url = current_url then
          { resp := some resp, resp_url := current_url,
            redirect_chain := chain ++ [current_url],
            crawl_error := some "Redirect loop detected",
            error_status := some resp.status_code, requests_made := count + 1 }
        else
          followRedirects server fuel next_url (seen_urls ++ [current_url])
            (chain ++ [current_url]) (count + 1)
    else
      { resp := some resp, resp_url := current_url, redirect_chain := chain,
        crawl_error := none, error_status := none, requests_made := count + 1 }

/-- The fields of `models.PageData` that the fetcher writes (timings are
not modelled; `page_size_bytes` counts characters of the body). -/
structure MPage where
  url : String
  final_url : String := ""
  status_code : Nat := 0
  crawl_error : Option String := none
  redirect_chain : List String := []
  content_type : String := ""
  is_html : Bool := true
  html : String := ""
  page_size_bytes : Nat := 0
  is_indexable : Bool := true
  x_robots_tag : Option String := none
  depth : Nat := 0
deriving Repr, DecidableEq

/-- Parse an all-digits Content-Length header value;
`int(headers.get("content-length", 0) or 0)` for well-formed values. -/
def parseContentLength (s : String) : Nat :=
  if s ≠ "" ∧ s.toList.all Char.isDigit then digitsToNat s.toList else 0

/-- Python `needle in hay` on strings (character lists). -/
def containsSub (hay needle : List Char) : Bool :=
  match hay with
  | [] => needle.isEmpty
  | _ :: t => needle.isPrefixOf hay || containsSub t needle

/-- Embedding of `fetch_page` (GET path, no exception raised by the
session): assembles the `PageData` fields from the `_follow_redirects`
result exactly as the source does.  When `resp` is `None` the page is
returned immediately — with whatever `crawl_error`/`status_code` the loop
set, which on hop exhaustion is nothing at all. -/
def fetch_page (server : String → MResponse) (url : String) (depth : Nat := 0) : MPage :=
  let fr := followRedirects server MAX_REDIRECTS url [] [] 0
  let page : MPage := { url := url, final_url := url, depth := depth,
                        redirect_chain := fr.redirect_chain,
                        crawl_error := fr.crawl_error,
                        status_code := fr.error_status.getD 0 }
  match fr.resp with
  | none => page
  | some resp =>
    let content_type := pyLower (headerGet resp.headers "content-type")
    let x_robots := headerGet resp.headers "x-robots-tag"
    let page := { page with
                  status_code := resp.status_code,
                  final_url := fr.resp_url,
                  content_type := content_type }
    let page :=
      if x_robots ≠ "" then
        { page with
          x_robots_tag := some x_robots,
          is_indexable := if containsSub (pyLower x_robots).toList "noindex".toList
            then false else page.is_indexable }
      else page
    if containsSub content_type.toList "text/html".toList then
      { page with is_html := true, html := resp.text,
                  page_size_bytes := resp.text.toList.length }
    else
      { page with is_html := false,
                  page_size_bytes := parseContentLength (headerGet resp.headers "content-length") }

/-- The `A → B → A` redirect-loop server of the C7 scenario. -/
def loopServerAB : String → MResponse := fun u =>
  if u = "http://a.example/A" then
    { status_code := 301, headers := [("Location", "http://a.example/B")] }
  else if u = "http://a.example/B" then
    { status_code := 302, headers := [("Location", "http://a.example/A")] }
  else
    { status_code := 200, headers := [("Content-Type", "text/html")], text := "ok" }

/-- A server on which every response is a 301 redirect to a fresh absolute
URL: the hop budget is always exhausted, no loop is ever detected. -/
def chainServer : String → MResponse := fun u =>
  { status_code := 301, headers := [("Location", u ++ "/r")] }

/-! ## Crawl orchestrator (`src/crawler/crawler.py`, `_crawl_internal`) -/

/-- The `AuditConfig` fields `_crawl_internal` reads. -/
structure CrawlConfig where
  max_pages : Nat
  max_workers : Nat
deriving Repr, DecidableEq

/-- What `_fetch_and_parse` hands back for a URL, as far as the frontier
logic is concerned.  `fetch_page` sets `page.url` to the requested URL and
`page.depth` to the given depth, so with the session mocked the page is a
function of the URL: the `links`/`exts` parameters of the crawl model below
give each URL's parsed internal and external link targets. -/
structure CrawlPage where
  url : String
  depth : Nat
  internal_links : List String
  external_links : List String
deriving Repr, DecidableEq

/-- The shared mutable state of `_crawl_internal`, plus a ghost `enqueued`
list recording every URL ever appended to the `todo` deque (in order). -/
structure CrawlState where
  visited : List String
  todo : List (String × Nat)
  pending : List (String × Nat)
  pages : List (String × CrawlPage)
  external_urls : List String
  enqueued : List String
deriving Repr, DecidableEq

/-- Python `set.add`. -/
def setAdd (s : List String) (x : String) : List String :=
  if x ∈ s then s else s ++ [x]

/-- Python `dict[k] = v` (overwrite in place, append when fresh). -/
def dictInsert (m : List (String × CrawlPage)) (k : String) (v : CrawlPage) :
    List (String × CrawlPage) :=
  match m with
  | [] => [(k, v)]
  | (k', v') :: rest => if k' = k then (k, v) :: rest else (k', v') :: dictInsert rest k v

/-- The seed loop of `_crawl_internal`: every seed with a nonempty
normalisation is appended to `todo` and added to `visited` (with no
membership check — `crawl` passes already-distinct normalised seeds). -/
def seedPhase (seeds : List String) (s : CrawlState) : CrawlState :=
  seeds.foldl
    (fun st url =>
      let norm := normalizeUrl url
      if norm ≠ "" then
        { st with todo := st.todo ++ [(norm, 0)],
                  visited := setAdd st.visited norm,
                  enqueued := st.enqueued ++ [norm] }
      else st) s

/-- The submission inner loop: move frontier entries into the pending set
while the worker window (`max_workers * 2`) has room, stopping when
completed-plus-in-flight would reach `max_pages`.  Returns the remaining
frontier and the new pending list. -/
def submitLoop (cfg : CrawlConfig) (npages : Nat) :
    List (String × Nat) → List (String × Nat) → List (String × Nat) × List (String × Nat)
  | [], pending => ([], pending)
  | (url, depth) :: rest, pending =>
    if pending.length < cfg.max_workers * 2 then
      if npages + pending.length ≥ cfg.max_pages then ((url, depth) :: rest, pending)
      else submitLoop cfg npages rest (pending ++ [(url, depth)])
    else ((url, depth) :: rest, pending)

/-- The submission phase applied to the crawl state. -/
def submitPhase (cfg : CrawlConfig) (s : CrawlState) : CrawlState :=
  { s with todo := (submitLoop cfg s.pages.length s.todo s.pending).1,
           pending := (submitLoop cfg s.pages.length s.todo s.pending).2 }

/-- The link-harvest loop run after a completed page is stored: a link's
normalised URL enters the frontier only when it is unvisited and
completed-plus-in-flight is still below the cap, and the visited-set insert
happens together with the frontier append (under the lock). -/
def harvestLinks (cfg : CrawlConfig) (page_depth : Nat) (links : List String)
    (s : CrawlState) : CrawlState :=
  links.foldl
    (fun st link =>
      let norm := normalizeUrl link
      if norm = "" then st
      else if norm ∉ st.visited ∧ st.pages.length + st.pending.length < cfg.max_pages then
        { st with visited := setAdd st.visited norm,
                  todo := st.todo ++ [(norm, page_depth + 1)],
                  enqueued := st.enqueued ++ [norm] }
      else st) s

/-- Handling of one completed future: pop it from the pending dict, store
the produced page under `page.url` (= the fetched URL), harvest its
internal links, and collect its external links. -/
def processOne (links exts : String → List String) (cfg : CrawlConfig)
    (e : String × Nat) (s : CrawlState) : CrawlState :=
  let s₁ : CrawlState := { s with pending := s.pending.filter (fun x => x.1 ≠ e.1) }
  let page : CrawlPage := { url := e.1, depth := e.2,
                            internal_links := links e.1, external_links := exts e.1 }
  let s₂ : CrawlState := { s₁ with pages := dictInsert s₁.pages page.url page }
  let s₃ := harvestLinks cfg page.depth page.internal_links s₂
  { s₃ with external_urls := page.external_links.foldl setAdd s₃.external_urls }

/-- Process the completed futures of one outer-loop iteration in pending
order, as `for future in completed` does. -/
def processCompleted (links exts : String → List String) (cfg : CrawlConfig) :
    List (String × Nat) → CrawlState → CrawlState
  | [], s => s
  | e :: es, s => processCompleted links exts cfg es (processOne links exts cfg e s)

/-- The outer `while True` loop of `_crawl_internal`.  `oracle fuel url`
tells whether the future for `url` is observed as done in this iteration —
the thread pool's nondeterministic completion order.  `fuel` bounds the
number of iterations (the model of an always-eventually-completing pool
needs only finitely many). -/
def crawlLoop (links exts : String → List String) (cfg : CrawlConfig)
    (oracle : Nat → String → Bool) : Nat → CrawlState → CrawlState
  | 0, s => s
  | fuel + 1, s =>
    let s₁ := submitPhase cfg s
    if s₁.pending = [] then s₁
    else
      let completed := s₁.pending.filter (fun e => oracle fuel e.1)
      let s₂ := processCompleted links exts cfg completed s₁
      if s₂.todo = [] ∧ s₂.pending = [] then s₂
      else crawlLoop links exts cfg oracle fuel s₂

/-- The empty initial crawl state. -/
def initialCrawlState : CrawlState :=
  { visited := [], todo := [], pending := [], pages := [], external_urls := [],
    enqueued := [] }

/-- Embedding of `_crawl_internal`: seed, then run the outer loop. -/
def crawlInternal (links exts : String → List String) (cfg : CrawlConfig)
    (oracle : Nat → String → Bool) (fuel : Nat) (seeds : List String) : CrawlState :=
  crawlLoop links exts cfg oracle fuel (seedPhase seeds initialCrawlState)

/-- The nonempty normalised seed URLs, in order: what the seed loop
actually enqueues. -/
def seedNorms (seeds : List String) : List String :=
  (seeds.map normalizeUrl).filter (fun x => x ≠ "")

/-- The mocked site of the page-cap scenario: the start page links to five
distinct internal pages, which link nowhere. -/
def scenarioLinks : String → List String := fun u =>
  if u = "http://site.example/" then
    ["http://site.example/p1", "http://site.example/p2", "http://site.example/p3",
     "http://site.example/p4", "http://site.example/p5"]
  else []

/-- The page-cap scenario configuration: `max_pages = 3`. -/
def scenarioCfg : CrawlConfig := { max_pages := 3, max_workers := 10 }

/-- The page-cap scenario run: every future completes immediately. -/
def scenarioResult : CrawlState :=
  crawlInternal scenarioLinks (fun _ => []) scenarioCfg (fun _ _ => true) 10
    ["http://site.example/"]

/-- All URLs currently booked in the crawl: page keys, in-flight URLs and
frontier URLs, in that order. -/
def stateKeys (s : CrawlState) : List String :=
  s.pages.map Prod.fst ++ s.pending.map Prod.fst ++ s.todo.map Prod.fst

/-- The crawl-loop invariant: the ghost enqueue log has no duplicates (every
URL is appended to the frontier at most once over the crawl's lifetime),
the visited set and the enqueue log hold the same URLs (they are updated
together, under the lock), every booked URL is distinct and visited, the
completed-plus-in-flight count respects the page cap, and every enqueued
URL is the output of `_normalize_url`. -/
structure CrawlInv (cfg : CrawlConfig) (s : CrawlState) : Prop where
  enq_nodup : s.enqueued.Nodup
  visited_eq : ∀ u, u ∈ s.visited ↔ u ∈ s.enqueued
  keys_nodup : (stateKeys s).Nodup
  keys_visited : ∀ u ∈ stateKeys s, u ∈ s.visited
  cap_ok : s.pages.length + s.pending.length ≤ cfg.max_pages
  enq_norm : ∀ u ∈ s.enqueued, ∃ x, u = normalizeUrl x

/-! ## Helper lemmas -/

lemma ite_gt_eq_max (a b : ℤ) : (if a < b then b else a) = max a b := by
  rcases lt_or_ge a b with h | h
  · rw [if_pos h, max_eq_right h.le]
  · rw [if_neg (not_lt.mpr h), max_eq_left h]

lemma nonempty_length_pos (p : String) (h : p ≠ "") : 1 ≤ (p.toList.length : ℤ) := by
  cases hp : p.toList with
  | nil =>
    exfalso
    apply h
    cases p with
    | mk data => cases data with
      | nil => rfl
      | cons c cs => simp [String.toList] at hp
  | cons c cs => simp

/-- The `best_allow_len` accumulation loop in `is_url_allowed` computes the
maximum of the lengths of the matching rule paths. -/
lemma allowFold_eq (path : String) (ps : List String) (a : ℤ) :
    ps.foldl
      (fun best p =>
        if pyStartswith path p ∧ (p.toList.length : ℤ) > best then (p.toList.length : ℤ)
        else best) a
      = ((ps.filter (fun p => pyStartswith path p)).map
          (fun p => (p.toList.length : ℤ))).foldl max a := by
  induction ps generalizing a with
  | nil => rfl
  | cons p ps ih =>
    simp only [List.foldl_cons, List.filter_cons]
    by_cases h : pyStartswith path p
    · simp only [h, if_true, true_and, List.map_cons, List.foldl_cons]
      rw [ih]
      congr 1
      simp only [gt_iff_lt]
      exact ite_gt_eq_max a _
    · simp only [h, false_and, if_false, ih, Bool.false_eq_true]

/-- The `best_disallow_len` accumulation loop (with the empty-path skip)
computes the maximum of the lengths of the matching nonempty rule paths. -/
lemma disallowFold_eq (path : String) (ps : List String) (a : ℤ) :
    ps.foldl
      (fun best p =>
        if p ≠ "" ∧ pyStartswith path p ∧ (p.toList.length : ℤ) > best then (p.toList.length : ℤ)
        else best) a
      = ((ps.filter (fun p => p ≠ "" ∧ pyStartswith path p)).map
          (fun p => (p.toList.length : ℤ))).foldl max a := by
  induction ps generalizing a with
  | nil => rfl
  | cons p ps ih =>
    rw [List.foldl_cons, List.filter_cons]
    by_cases hcond : p ≠ "" ∧ pyStartswith path p = true
    · have hstep : (if p ≠ "" ∧ pyStartswith path p = true ∧ (p.toList.length : ℤ) > a
            then (p.toList.length : ℤ) else a) = max a (p.toList.length : ℤ) := by
        rcases lt_or_ge a (p.toList.length : ℤ) with hlt | hge
        · rw [if_pos ⟨hcond.1, hcond.2, hlt⟩, max_eq_right hlt.le]
        · rw [if_neg (fun hc => absurd hc.2.2 (not_lt.mpr hge)), max_eq_left hge]
      rw [hstep, if_pos (by simpa using hcond), List.map_cons, List.foldl_cons, ih]
    · rw [if_neg (fun hc => hcond ⟨hc.1, hc.2.1⟩), if_neg (by simpa using hcond)]
      exact ih a

lemma foldl_max_shift (xs : List ℤ) (a x : ℤ) :
    xs.foldl max (max a x) = max a (xs.foldl max x) := by
  induction xs generalizing x with
  | nil => rfl
  | cons y ys ih =>
    show ys.foldl max (max (max a x) y) = max a (ys.foldl max (max x y))
    rw [max_assoc, ih]

lemma init_le_foldl_max (l : List ℤ) (a : ℤ) : a ≤ l.foldl max a := by
  induction l generalizing a with
  | nil => exact le_refl a
  | cons y ys ih => exact le_trans (le_max_left a y) (ih (max a y))

lemma roundHalfEven_bounds (m : ℚ) :
    ⌊m⌋ ≤ roundHalfEven m ∧ roundHalfEven m ≤ ⌊m⌋ + 1 := by
  unfold roundHalfEven
  by_cases h1 : m - ⌊m⌋ < 1/2
  · rw [if_pos h1]; omega
  · rw [if_neg h1]
    by_cases h2 : 1/2 < m - ⌊m⌋
    · rw [if_pos h2]; omega
    · rw [if_neg h2]
      by_cases h3 : Even ⌊m⌋
      · rw [if_pos h3]; omega
      · rw [if_neg h3]; omega

lemma roundHalfEven_mono {a b : ℚ} (h : a ≤ b) :
    roundHalfEven a ≤ roundHalfEven b := by
  rcases lt_or_eq_of_le (Int.floor_le_floor h) with hf | hf
  · calc roundHalfEven a ≤ ⌊a⌋ + 1 := (roundHalfEven_bounds a).2
      _ ≤ ⌊b⌋ := by omega
      _ ≤ roundHalfEven b := (roundHalfEven_bounds b).1
  · by_cases hb1 : b - ⌊b⌋ < 1/2
    · have ha1 : a - ⌊a⌋ < 1/2 := by rw [hf]; linarith
      have e1 : roundHalfEven a = ⌊a⌋ := by unfold roundHalfEven; rw [if_pos ha1]
      have e2 : roundHalfEven b = ⌊b⌋ := by unfold roundHalfEven; rw [if_pos hb1]
      rw [e1, e2, hf]
    · by_cases hb2 : 1/2 < b - ⌊b⌋
      · have e2 : roundHalfEven b = ⌊b⌋ + 1 := by
          unfold roundHalfEven; rw [if_neg hb1, if_pos hb2]
        have := (roundHalfEven_bounds a).2
        omega
      · have hrb : b - ⌊b⌋ = 1/2 := le_antisymm (not_lt.mp hb2) (not_lt.mp hb1)
        by_cases ha1 : a - ⌊a⌋ < 1/2
        · have e1 : roundHalfEven a = ⌊a⌋ := by unfold roundHalfEven; rw [if_pos ha1]
          rw [e1, hf]
          exact (roundHalfEven_bounds b).1
        · have hab : a = b := by
            have hra : 1/2 ≤ a - ⌊a⌋ := not_lt.mp ha1
            have : a - ⌊a⌋ ≤ b - ⌊b⌋ := by rw [hf]; linarith
            have : a - ⌊a⌋ = 1/2 := le_antisymm (by linarith) hra
            have hfl : (⌊a⌋ : ℚ) = (⌊b⌋ : ℚ) := by exact_mod_cast congrArg Int.cast hf
            linarith
          rw [hab]

lemma pyRound_mono {a b : ℚ} (d : ℕ) (h : a ≤ b) : pyRound a d ≤ pyRound b d := by
  unfold pyRound
  have h10 : (0 : ℚ) < 10 ^ d := by positivity
  apply (div_le_div_iff_of_pos_right h10).mpr
  exact_mod_cast roundHalfEven_mono (mul_le_mul_of_nonneg_right h h10.le)

lemma pyRound_zero (d : ℕ) : pyRound 0 d = 0 := by
  have : roundHalfEven 0 = 0 := by
    unfold roundHalfEven
    norm_num
  unfold pyRound
  rw [zero_mul, this]
  norm_num

lemma pyRound_nonneg {q : ℚ} (d : ℕ) (h : 0 ≤ q) : 0 ≤ pyRound q d := by
  have := pyRound_mono d h
  rwa [pyRound_zero] at this

lemma pyRound_hundred : pyRound 100 1 = 100 := by
  have hfl : ⌊(1000 : ℚ)⌋ = 1000 := by
    rw [show ((1000 : ℚ)) = ((1000 : ℤ) : ℚ) by norm_num, Int.floor_intCast]
  have : roundHalfEven 1000 = 1000 := by
    unfold roundHalfEven
    rw [hfl]
    norm_num
  unfold pyRound
  norm_num [this]

/-- Appending an already-present element does not change the number of
distinct elements. -/
lemma dedup_length_append_mem {l : List String} {x : String} (h : x ∈ l) :
    ((l ++ [x]).dedup).length = l.dedup.length := by
  rw [← List.card_toFinset, ← List.card_toFinset, List.toFinset_append]
  congr 1
  simp [Finset.union_eq_left, h]

/-- Appending a fresh element increases the number of distinct elements by
one. -/
lemma dedup_length_append_not_mem {l : List String} {x : String} (h : x ∉ l) :
    ((l ++ [x]).dedup).length = l.dedup.length + 1 := by
  rw [← List.card_toFinset, ← List.card_toFinset, List.toFinset_append]
  have : l.toFinset ∪ [x].toFinset = insert x l.toFinset := by
    ext a
    simp [or_comm]
  rw [this, Finset.card_insert_of_not_mem (by simpa using h)]

/-- A sum over a list strictly grows when every term weakly grows and one
term strictly grows. -/
lemma map_sum_lt {α : Type} (L : List α) (f g : α → ℚ) (x₀ : α)
    (hle : ∀ x ∈ L, f x ≤ g x) (hmem : x₀ ∈ L) (hlt : f x₀ < g x₀) :
    (L.map f).sum < (L.map g).sum := by
  induction L with
  | nil => cases hmem
  | cons y ys ih =>
    rw [List.map_cons, List.map_cons, List.sum_cons, List.sum_cons]
    rcases List.mem_cons.mp hmem with rfl | hmem'
    · have h2 : (ys.map f).sum ≤ (ys.map g).sum :=
        List.sum_le_sum (fun x hx => hle x (List.mem_cons_of_mem _ hx))
      linarith
    · have h1 : f y ≤ g y := hle y (List.mem_cons_self y ys)
      have h2 := ih (fun x hx => hle x (List.mem_cons_of_mem _ hx)) hmem'
      linarith

lemma alistLookup_bucketAppend {β : Type} (m : List (String × List β)) (k k' : String) (v : β) :
    (alistLookup (bucketAppend m k v) k').getD []
      = if k = k' then (alistLookup m k').getD [] ++ [v]
        else (alistLookup m k').getD [] := by
  induction m with
  | nil =>
    by_cases h : k = k' <;> simp [bucketAppend, alistLookup, h]
  | cons e rest ih =>
    obtain ⟨k₀, vs⟩ := e
    by_cases h0 : k₀ = k
    · subst h0
      by_cases h : k₀ = k'
      · subst h
        simp [bucketAppend, alistLookup]
      · simp [bucketAppend, alistLookup, h]
    · by_cases h : k₀ = k'
      · subst h
        have hkk : ¬ k = k₀ := fun he => h0 he.symm
        simp [bucketAppend, alistLookup, h0, hkk]
      · simp [bucketAppend, alistLookup, h0, h, ih]

lemma typeFold_lookup (l : List Issue) (tm₀ : List (String × List Issue)) (t : String) :
    (alistLookup (typeFold l tm₀) t).getD []
      = (alistLookup tm₀ t).getD [] ++ l.filter (fun i => i.issue_type = t) := by
  induction l generalizing tm₀ with
  | nil => simp [typeFold]
  | cons i is ih =>
    show (alistLookup (typeFold is (bucketAppend tm₀ i.issue_type i)) t).getD [] = _
    rw [ih, alistLookup_bucketAppend, List.filter_cons]
    by_cases h : i.issue_type = t
    · rw [if_pos h, if_pos (by simpa using h), List.append_assoc]
      rfl
    · rw [if_neg h, if_neg (by simpa using h)]

lemma alistLookup_groupInsert (m : List (String × List (String × List Issue)))
    (i : Issue) (c : String) :
    (alistLookup (groupInsert m i) c).getD []
      = if i.category = c then bucketAppend ((alistLookup m c).getD []) i.issue_type i
        else (alistLookup m c).getD [] := by
  induction m with
  | nil =>
    by_cases h : i.category = c <;> simp [groupInsert, alistLookup, bucketAppend, h]
  | cons e rest ih =>
    obtain ⟨c₀, tm⟩ := e
    by_cases h0 : c₀ = i.category
    · by_cases h : c₀ = c
      · have hic : i.category = c := h0 ▸ h
        simp [groupInsert, alistLookup, h0, h, hic]
      · have hic : ¬ i.category = c := fun he => h (h0.trans he)
        simp [groupInsert, alistLookup, h0, h, hic]
    · by_cases h : c₀ = c
      · have hic : ¬ i.category = c := fun he => h0 (h.trans he.symm)
        have hcic : ¬ c = i.category := fun he => h0 (h.trans he)
        simp [groupInsert, alistLookup, h0, h, hic, hcic]
      · simp [groupInsert, alistLookup, h0, h, ih]

lemma groupIssues_lookup_fold (issues : List Issue)
    (m : List (String × List (String × List Issue))) (c : String) :
    (alistLookup (issues.foldl groupInsert m) c).getD []
      = typeFold (issuesOfCat issues c) ((alistLookup m c).getD []) := by
  induction issues generalizing m with
  | nil => rfl
  | cons i is ih =>
    rw [List.foldl_cons, ih, alistLookup_groupInsert]
    unfold issuesOfCat
    rw [List.filter_cons]
    by_cases h : i.category = c
    · rw [if_pos h, if_pos (by simpa using h)]
      rfl
    · rw [if_neg h, if_neg (by simpa using h)]

lemma bucketAppend_keys {β : Type} (m : List (String × List β)) (k : String) (v : β) :
    (bucketAppend m k v).map Prod.fst
      = if k ∈ m.map Prod.fst then m.map Prod.fst else m.map Prod.fst ++ [k] := by
  induction m with
  | nil => simp [bucketAppend]
  | cons e rest ih =>
    obtain ⟨k₀, vs⟩ := e
    by_cases h0 : k₀ = k
    · subst h0
      simp [bucketAppend]
    · have hk0 : ¬ k = k₀ := fun he => h0 he.symm
      by_cases h : k ∈ rest.map Prod.fst
      · simp [bucketAppend, h0, ih, h, hk0]
      · simp [bucketAppend, h0, ih, h, hk0]

lemma typeFold_keys (l : List Issue) (tm₀ : List (String × List Issue)) :
    (typeFold l tm₀).map Prod.fst
      = tm₀.map Prod.fst
          ++ newKeysAux (tm₀.map Prod.fst) (l.map (fun i => i.issue_type)) := by
  induction l generalizing tm₀ with
  | nil => simp [typeFold, newKeysAux]
  | cons i is ih =>
    show (typeFold is (bucketAppend tm₀ i.issue_type i)).map Prod.fst = _
    rw [ih, bucketAppend_keys, List.map_cons]
    by_cases h : i.issue_type ∈ tm₀.map Prod.fst
    · rw [if_pos h]
      simp [newKeysAux, h]
    · rw [if_neg h]
      simp [newKeysAux, h]

lemma newKeysAux_mem (ts : List String) :
    ∀ (seen : List String) (x : String),
      x ∈ newKeysAux seen ts ↔ (x ∈ ts ∧ x ∉ seen) := by
  induction ts with
  | nil => simp [newKeysAux]
  | cons t ts ih =>
    intro seen x
    by_cases h : t ∈ seen
    · rw [newKeysAux, if_pos h, ih]
      constructor
      · rintro ⟨hx, hs⟩
        exact ⟨List.mem_cons_of_mem _ hx, hs⟩
      · rintro ⟨hx, hs⟩
        rcases List.mem_cons.mp hx with rfl | hx'
        · exact absurd h hs
        · exact ⟨hx', hs⟩
    · rw [newKeysAux, if_neg h, List.mem_cons, ih]
      constructor
      · rintro (rfl | ⟨hx, hs⟩)
        · exact ⟨List.mem_cons_self _ _, h⟩
        · refine ⟨List.mem_cons_of_mem _ hx, fun hxs => hs (List.mem_append_left _ hxs)⟩
      · rintro ⟨hx, hs⟩
        rcases List.mem_cons.mp hx with rfl | hx'
        · exact Or.inl rfl
        · by_cases hxt : x = t
          · exact Or.inl hxt
          · refine Or.inr ⟨hx', fun hmem => ?_⟩
            rcases List.mem_append.mp hmem with h1 | h1
            · exact hs h1
            · exact hxt (by simpa using h1)

lemma newKeysAux_nodup (ts : List String) :
    ∀ seen : List String, (newKeysAux seen ts).Nodup := by
  induction ts with
  | nil => intro seen; simp [newKeysAux]
  | cons t ts ih =>
    intro seen
    by_cases h : t ∈ seen
    · rw [newKeysAux, if_pos h]
      exact ih seen
    · rw [newKeysAux, if_neg h]
      refine List.nodup_cons.mpr ⟨fun hmem => ?_, ih _⟩
      exact ((newKeysAux_mem ts _ t).mp hmem).2 (List.mem_append_right _ (by simp))

lemma entries_eq_map_lookup {β : Type} (tm : List (String × List β))
    (h : (tm.map Prod.fst).Nodup) :
    tm = (tm.map Prod.fst).map (fun t => (t, (alistLookup tm t).getD [])) := by
  induction tm with
  | nil => rfl
  | cons e rest ih =>
    obtain ⟨k, b⟩ := e
    rw [List.map_cons, List.map_cons]
    have hk : (alistLookup ((k, b) :: rest) k).getD [] = b := by simp [alistLookup]
    rw [hk]
    congr 1
    have hnd := List.nodup_cons.mp (show (k :: rest.map Prod.fst).Nodup from h)
    conv_lhs => rw [ih hnd.2]
    apply List.map_congr_left
    intro t ht
    have htk : ¬ k = t := fun he => hnd.1 (he ▸ ht)
    simp [alistLookup, htk]

lemma typeFold_entries (l : List Issue) :
    typeFold l []
      = (newKeysAux [] (l.map (fun i => i.issue_type))).map
          (fun t => (t, l.filter (fun i => i.issue_type = t))) := by
  have hkeys : (typeFold l []).map Prod.fst
      = newKeysAux [] (l.map (fun i => i.issue_type)) := by
    simpa using typeFold_keys l []
  have hnodup : ((typeFold l []).map Prod.fst).Nodup := by
    rw [hkeys]
    exact newKeysAux_nodup _ []
  conv_lhs => rw [entries_eq_map_lookup (typeFold l []) hnodup]
  rw [hkeys]
  apply List.map_congr_left
  intro t ht
  rw [typeFold_lookup]
  rfl

lemma perm_newKeys_dedup (ts : List String) :
    (newKeysAux [] ts).Perm ts.dedup := by
  apply (List.perm_ext_iff_of_nodup (newKeysAux_nodup ts []) (List.nodup_dedup ts)).mpr
  intro a
  rw [List.mem_dedup, newKeysAux_mem]
  simp

lemma catDeduction_eq_spec (n : ℤ) (issues : List Issue) (c : String) :
    catDeduction n ((alistLookup (groupIssues issues) c).getD [])
      = specCatDeduction n issues c := by
  unfold groupIssues
  rw [groupIssues_lookup_fold]
  show catDeduction n (typeFold (issuesOfCat issues c) []) = _
  rw [typeFold_entries]
  unfold catDeduction specCatDeduction
  rw [List.map_map]
  exact List.Perm.sum_eq (List.Perm.map _ (perm_newKeys_dedup _))

lemma roundHalfEven_intCast (z : ℤ) : roundHalfEven (z : ℚ) = z := by
  unfold roundHalfEven
  rw [Int.floor_intCast]
  norm_num

lemma pyRound_int (z : ℤ) (d : ℕ) : pyRound (z : ℚ) d = (z : ℚ) := by
  unfold pyRound
  have h1 : ((z : ℚ) * 10 ^ d) = ((z * 10 ^ d : ℤ) : ℚ) := by push_cast; ring
  rw [h1, roundHalfEven_intCast]
  push_cast
  rw [mul_div_assoc, div_self (by positivity), mul_one]

/-- The computed health score equals the specification-side formula: the
grouping dict, the per-type deductions, the category caps and the clamped,
rounded overall score agree with the filter/dedup formulation. -/
lemma compute_health_score_eq_spec (issues : List Issue) (total_pages : ℤ) :
    compute_health_score issues total_pages = specHealthScore issues total_pages := by
  by_cases hnil : issues = []
  · subst hnil
    have h0 : ∀ c, specCatDeduction (max total_pages 1) ([] : List Issue) c = 0 := by
      intro c
      simp [specCatDeduction, issuesOfCat, specTypes]
    have hW : ∀ cw ∈ SCORING_WEIGHTS,
        pyRound (cw.2 - min (0 : ℚ) cw.2) 2 = cw.2 ∧ min (0 : ℚ) cw.2 = 0 := by
      intro cw hcw
      fin_cases hcw <;>
        refine ⟨?_, by norm_num⟩ <;>
        · norm_num
          exact_mod_cast pyRound_int _ 2
    rw [compute_health_score, if_pos rfl]
    unfold specHealthScore totalCappedDeduction specCappedDeduction
    simp only [h0]
    have hsum : (SCORING_WEIGHTS.map (fun cw => min (0 : ℚ) cw.2)).sum = 0 := by
      rw [List.map_congr_left (fun cw hcw => (hW cw hcw).2)]
      simp
    rw [hsum]
    refine Prod.ext ?_ ?_
    · show (100 : ℚ) = pyRound (max 0 (min 100 (100 - 0))) 1
      norm_num
      exact (by exact_mod_cast pyRound_int 100 1 : pyRound ((100 : ℚ)) 1 = 100).symm
    · show SCORING_WEIGHTS.map (fun cw => (cw.1, cw.2))
        = SCORING_WEIGHTS.map (fun cw => (cw.1, pyRound (cw.2 - min 0 cw.2) 2))
      exact List.map_congr_left (fun cw hcw => by rw [(hW cw hcw).1])
  · rw [compute_health_score, if_neg hnil]
    unfold specHealthScore totalCappedDeduction specCappedDeduction
    simp only [List.map_map, Function.comp_def, catDeduction_eq_spec]

/-! ## Claim theorems: parser content hash (C8) -/

/-- Claim C8: two pages whose extracted visible text is identical after
normalisation (whitespace collapsed to single spaces, lower-cased) receive
equal `content_hash` values, and the hash is a function of the normalised
visible text only. -/
theorem content_hash_eq_of_normalized_eq (md5hex : String → String) (t₁ t₂ : String)
    (h : pyLower (normalizeWs t₁) = pyLower (normalizeWs t₂)) :
    (parseContentStep md5hex t₁).content_hash = (parseContentStep md5hex t₂).content_hash ∧
    ∀ t : String, (parseContentStep md5hex t).content_hash = md5hex (pyLower (normalizeWs t)) := by
  constructor
  · show md5hex (pyLower (normalizeWs t₁)) = md5hex (pyLower (normalizeWs t₂))
    exact congrArg md5hex h
  · intro t
    rfl

/-- Witness for C8 at concrete inputs: the two raw texts differ in case and
whitespace but normalise identically, hence hash identically. -/
theorem content_hash_eq_of_normalized_eq_w :
    pyLower (normalizeWs "Hello \t World") = pyLower (normalizeWs "  hello world\n") ∧
    (parseContentStep id "Hello \t World").content_hash
      = (parseContentStep id "  hello world\n").content_hash :=
  ⟨by decide, (content_hash_eq_of_normalized_eq id "Hello \t World" "  hello world\n"
      (by decide)).1⟩

/-! ## Claim theorems: robots matching (C3) -/

/-- Claim C3: for robots data that exists, `is_url_allowed` implements
longest-matching-prefix selection with empty Disallow paths excluded and
Allow winning on ties, as `specRobotsAllowed` states it; concretely, with
`Disallow: /private` and `Allow: /private/public` for agent `*`,
`/private/public/page` is allowed, `/private/secret` is disallowed and
`/public` is allowed. -/
theorem is_url_allowed_matches_spec :
    (∀ (rd : RobotsModel) (url user_agent : String), rd.exists_ = true →
      isUrlAllowed url rd user_agent = specRobotsAllowed url rd user_agent) ∧
    isUrlAllowed "http://s.example/private/public/page" robotsPrecedenceExample
      "SiteAuditBot/1.0" = true ∧
    isUrlAllowed "http://s.example/private/secret" robotsPrecedenceExample
      "SiteAuditBot/1.0" = false ∧
    isUrlAllowed "http://s.example/public" robotsPrecedenceExample
      "SiteAuditBot/1.0" = true := by
  have key : ∀ (aLens dLens : List ℤ), (∀ x ∈ dLens, 1 ≤ x) → (∀ x ∈ aLens, 0 ≤ x) →
      (if dLens.foldl max (-1) < 0 then true
       else decide (aLens.foldl max (-1) ≥ dLens.foldl max (-1)))
        = (match dLens.max? with
           | none => true
           | some dmax =>
             match aLens.max? with
             | none => false
             | some amax => decide (amax ≥ dmax)) := by
    intro aLens dLens hd1 ha0
    cases dLens with
    | nil => rfl
    | cons d ds =>
      have hdfold : (d :: ds).foldl max (-1 : ℤ) = ds.foldl max d := by
        have h1 : max (-1 : ℤ) d = d :=
          max_eq_right (le_trans (by norm_num) (hd1 d (List.mem_cons_self d ds)))
        rw [List.foldl_cons, h1]
      have hM1 : (1 : ℤ) ≤ ds.foldl max d :=
        le_trans (hd1 d (List.mem_cons_self d ds)) (init_le_foldl_max ds d)
      rw [hdfold, if_neg (by omega : ¬ ds.foldl max d < 0)]
      have hmax : (d :: ds).max? = some (ds.foldl max d) := rfl
      rw [hmax]
      cases aLens with
      | nil =>
        show decide ((-1 : ℤ) ≥ ds.foldl max d) = false
        simp only [ge_iff_le, decide_eq_false_iff_not, not_le]
        omega
      | cons a as =>
        have hafold : (a :: as).foldl max (-1 : ℤ) = as.foldl max a := by
          have h1 : max (-1 : ℤ) a = a :=
            max_eq_right (le_trans (by norm_num) (ha0 a (List.mem_cons_self a as)))
          rw [List.foldl_cons, h1]
        rw [hafold]
        rfl
  refine ⟨?_, by decide, by decide, by decide⟩
  intro rd url user_agent hex
  simp only [isUrlAllowed, specRobotsAllowed, hex]
  rw [if_neg (by simp)]
  rw [allowFold_eq, disallowFold_eq]
  apply key
  · intro x hx
    obtain ⟨p, hp, rfl⟩ := List.mem_map.mp hx
    have hpne : p ≠ "" := (by simpa using (List.mem_filter.mp hp).2 : p ≠ "" ∧ _).1
    exact nonempty_length_pos p hpne
  · intro x hx
    obtain ⟨p, hp, rfl⟩ := List.mem_map.mp hx
    positivity

/-- Witness for C3: the general equivalence applied to the concrete
precedence robots data. -/
theorem is_url_allowed_matches_spec_w :
    isUrlAllowed "http://s.example/private/secret" robotsPrecedenceExample "Googlebot"
      = specRobotsAllowed "http://s.example/private/secret" robotsPrecedenceExample
          "Googlebot" :=
  is_url_allowed_matches_spec.1 robotsPrecedenceExample "http://s.example/private/secret"
    "Googlebot" rfl

/-! ## Claim theorems: robots parse errors (C9) -/

/-- Claim C9 counterexample: in a robots.txt where `Disallow: /b` follows a
group-closing blank line with no intervening `User-agent` line,
`_parse_robots` records NO parse error for the orphan directive (the claim
asserts one is recorded): the parse-errors list comes back empty, while the
orphan directive indeed adds no rule. -/
theorem robots_orphan_records_no_error :
    (parseRobotsText "User-agent: *\nDisallow: /a\n\nDisallow: /b").parse_errors = [] ∧
    (parseRobotsText "User-agent: *\nDisallow: /a\n\nDisallow: /b").disallow_rules
      = [⟨"*", "/a"⟩] :=
  ⟨rfl, rfl⟩

/-- Claim C9 amended: an `Allow`/`Disallow` directive encountered while the
current agent group is empty (as after a group-closing blank line) adds no
rule and leaves the collected data — including the parse-error list —
completely unchanged, and parsing of the remaining lines continues;
concretely, a later `User-agent` group in the same file still parses. -/
theorem robots_orphan_directive_skipped :
    (∀ (s : RobotsParseState) (line : String),
      s.current_agents = [] →
      pyStrip line ≠ "" →
      ¬ pyStartswith (pyStrip line) "#" = true →
      (pyStrip line).toList.contains ':' = true →
      (pyLower (pyStrip ⟨(splitAtFirst (pyStrip line).toList ':').1⟩) = "disallow" ∨
       pyLower (pyStrip ⟨(splitAtFirst (pyStrip line).toList ':').1⟩) = "allow") →
      (robotsStep s line).data = s.data) ∧
    parseRobotsText "User-agent: *\nDisallow: /a\n\nDisallow: /b\nUser-agent: g\nDisallow: /c"
      = { exists_ := true, disallow_rules := [⟨"*", "/a"⟩, ⟨"g", "/c"⟩] } := by
  constructor
  · intro s line hag hne hnc hcol hdir
    simp only [robotsStep]
    rw [if_neg (by rintro (h | h); exact hne h; exact hnc h)]
    rw [if_neg (not_not_intro hcol)]
    rcases hdir with hd | hd
    · rw [hd]
      rw [if_neg (by decide), if_pos rfl]
      simp [hag]
    · rw [hd]
      rw [if_neg (by decide), if_neg (by decide), if_pos rfl]
      simp [hag]
  · rfl

/-- Witness for the amended C9: a concrete orphan `Disallow` line leaves the
collected robots data untouched. -/
theorem robots_orphan_directive_skipped_w :
    (robotsStep ⟨[], false, { exists_ := true }⟩ "Disallow: /b").data
      = ({ exists_ := true } : RobotsModel) :=
  robots_orphan_directive_skipped.1 ⟨[], false, { exists_ := true }⟩ "Disallow: /b"
    rfl (by decide) (by decide) (by decide) (Or.inl (by decide))

/-! ## Claim theorems: scorer cap and clamp (C4) -/

/-- Claim C4 amended: for every issue list and positive total-page count,
`compute_health_score` deducts per category the sum over unique issue types
of the per-severity base (critical 12, warning 4, info 0.8) times
`min 1 (distinct affected pages / total pages)`, caps each category's
deduction at its weight — so every category score is the weight minus the
capped deduction, rounded to two decimals, and never negative — and returns
100 minus the capped deductions, clamped to [0, 100] and rounded to one
decimal (the rounding is what the original claim omitted). -/
theorem compute_health_score_formula (issues : List Issue) (total_pages : ℤ)
    (hpos : 1 ≤ total_pages) :
    compute_health_score issues total_pages = specHealthScore issues total_pages ∧
    (∀ p ∈ (compute_health_score issues total_pages).2, 0 ≤ p.2) ∧
    0 ≤ (compute_health_score issues total_pages).1 ∧
    (compute_health_score issues total_pages).1 ≤ 100 := by
  refine ⟨compute_health_score_eq_spec issues total_pages, ?_, ?_, ?_⟩
  · rw [compute_health_score_eq_spec]
    intro p hp
    unfold specHealthScore at hp
    simp only [List.mem_map] at hp
    obtain ⟨cw, hcw, rfl⟩ := hp
    apply pyRound_nonneg
    have h1 : specCappedDeduction (max total_pages 1) issues cw.1 cw.2 ≤ cw.2 :=
      min_le_right _ _
    linarith
  · rw [compute_health_score_eq_spec]
    exact pyRound_nonneg 1 (le_max_left 0 _)
  · rw [compute_health_score_eq_spec]
    calc (specHealthScore issues total_pages).1
        ≤ pyRound 100 1 :=
          pyRound_mono 1 (max_le (by norm_num) (min_le_left _ _))
      _ = 100 := by exact_mod_cast pyRound_int 100 1

/-- Claim C4 counterexample: with a single critical Meta issue and 7 total
pages the returned overall score is the rounded value 98.3, not the exact
clamped value 100 − 12/7 = 98.2857… asserted by the claim. -/
theorem compute_health_score_unrounded_cex :
    (compute_health_score [metaCritIssue "u1"] 7).1
      ≠ max 0 (min 100 (100 - totalCappedDeduction [metaCritIssue "u1"] 7)) := by
  have h2 : totalCappedDeduction [metaCritIssue "u1"] 7 = 12/7 := by
    simp +decide [totalCappedDeduction, SCORING_WEIGHTS, specCappedDeduction,
      specCatDeduction, specTypes, issuesOfCat, specTypeDeduction, metaCritIssue, typeWeight]
    norm_num
  have h1 : (compute_health_score [metaCritIssue "u1"] 7).1 = 983/10 := by
    simp +decide [compute_health_score, SCORING_WEIGHTS, groupIssues, groupInsert,
      metaCritIssue, alistLookup, catDeduction, typeDeduction, typeWeight, bucketAppend,
      pyRound, roundHalfEven]
    norm_num [Int.floor_eq_iff, Int.fract]
  rw [h1, h2]
  norm_num

/-- Witness for C4: the amended formula at a concrete input. -/
theorem compute_health_score_formula_w :
    compute_health_score [metaCritIssue "u1"] 7 = specHealthScore [metaCritIssue "u1"] 7 :=
  (compute_health_score_formula [metaCritIssue "u1"] 7 (by norm_num)).1

/-! ## Helper lemmas for score monotonicity (C5) -/

lemma issuesOfCat_append (issues : List Issue) (i : Issue) (c : String) :
    issuesOfCat (issues ++ [i]) c
      = issuesOfCat issues c ++ if i.category = c then [i] else [] := by
  unfold issuesOfCat
  rw [List.filter_append]
  congr 1
  by_cases h : i.category = c
  · simp [h]
  · simp [h]

lemma specCatDeduction_append_ne (n : ℤ) (issues : List Issue) (i : Issue) (c : String)
    (h : ¬ i.category = c) :
    specCatDeduction n (issues ++ [i]) c = specCatDeduction n issues c := by
  unfold specCatDeduction
  rw [issuesOfCat_append, if_neg h, List.append_nil]

lemma typeFilter_append (l : List Issue) (i : Issue) (t : String) :
    (l ++ [i]).filter (fun k => k.issue_type = t)
      = l.filter (fun k => k.issue_type = t) ++ if i.issue_type = t then [i] else [] := by
  rw [List.filter_append]
  congr 1
  by_cases h : i.issue_type = t
  · simp [h]
  · simp [h]

lemma specTypeDeduction_append_ne (n : ℤ) (l : List Issue) (i : Issue) (t : String)
    (h : ¬ i.issue_type = t) :
    specTypeDeduction n (l ++ [i]) t = specTypeDeduction n l t := by
  unfold specTypeDeduction
  rw [typeFilter_append, if_neg h, List.append_nil]

lemma typeDeduction_cons (n : ℤ) (j : Issue) (l : List Issue) :
    typeDeduction n (j :: l)
      = typeWeight j.severity
          * min 1 (((((j :: l).map (fun k => k.url)).dedup).length : ℚ) / (n : ℚ)) := rfl

lemma typeDeduction_append_same_url {n : ℤ} {tl : List Issue} {i : Issue}
    (hne : tl ≠ []) (hurl : i.url ∈ tl.map (fun k => k.url)) :
    typeDeduction n (tl ++ [i]) = typeDeduction n tl := by
  obtain ⟨j, tl', rfl⟩ : ∃ j tl', tl = j :: tl' := by
    cases tl with
    | nil => exact absurd rfl hne
    | cons j tl' => exact ⟨j, tl', rfl⟩
  rw [List.cons_append, typeDeduction_cons, typeDeduction_cons]
  congr 2
  rw [show (j :: (tl' ++ [i])).map (fun k => k.url)
      = (j :: tl').map (fun k => k.url) ++ [i.url] by simp]
  rw [dedup_length_append_mem hurl]

lemma typeDeduction_append_new_url {n : ℤ} {tl : List Issue} {i : Issue}
    (hcrit : ∀ k ∈ tl, k.severity = "critical") (hne : tl ≠ [])
    (hurl : i.url ∉ tl.map (fun k => k.url))
    (hlen : (((tl.map (fun k => k.url)).dedup).length : ℤ) < n) :
    typeDeduction n tl < typeDeduction n (tl ++ [i]) := by
  obtain ⟨j, tl', rfl⟩ : ∃ j tl', tl = j :: tl' := by
    cases tl with
    | nil => exact absurd rfl hne
    | cons j tl' => exact ⟨j, tl', rfl⟩
  rw [List.cons_append, typeDeduction_cons, typeDeduction_cons,
    hcrit j (List.mem_cons_self j tl')]
  have hw12 : typeWeight "critical" = 12 := rfl
  rw [hw12]
  rw [show (j :: (tl' ++ [i])).map (fun k => k.url)
      = (j :: tl').map (fun k => k.url) ++ [i.url] by simp]
  rw [dedup_length_append_not_mem hurl]
  set k : ℕ := (((j :: tl').map (fun kk => kk.url)).dedup).length with hk
  have hn0 : (0 : ℤ) < n := lt_of_le_of_lt (Int.ofNat_nonneg k) hlen
  have hnq : (0 : ℚ) < (n : ℚ) := by exact_mod_cast hn0
  have hk1n : ((k : ℚ) + 1) ≤ (n : ℚ) := by
    have : (k : ℤ) + 1 ≤ n := hlen
    exact_mod_cast this
  have hr2 : ((k + 1 : ℕ) : ℚ) / (n : ℚ) ≤ 1 := by
    rw [div_le_one hnq]
    push_cast
    linarith
  have hr1lt : (k : ℚ) / (n : ℚ) < ((k + 1 : ℕ) : ℚ) / (n : ℚ) := by
    apply (div_lt_div_iff_of_pos_right hnq).mpr
    push_cast
    linarith
  rw [min_eq_right (le_trans hr1lt.le hr2), min_eq_right hr2]
  exact mul_lt_mul_of_pos_left hr1lt (by norm_num)

lemma dedup_append_perm {ts : List String} {T : String} (h : T ∈ ts) :
    ((ts ++ [T]).dedup).Perm ts.dedup := by
  apply (List.perm_ext_iff_of_nodup (List.nodup_dedup _) (List.nodup_dedup _)).mpr
  intro a
  rw [List.mem_dedup, List.mem_dedup, List.mem_append]
  constructor
  · rintro (ha | ha)
    · exact ha
    · rw [List.mem_singleton] at ha
      exact ha ▸ h
  · exact fun ha => Or.inl ha

lemma specTypeDeduction_eq_typeDeduction (n : ℤ) (l : List Issue) (t : String) :
    specTypeDeduction n l t = typeDeduction n (l.filter (fun k => k.issue_type = t)) := rfl

lemma specTypes_append_perm {issues : List Issue} {i : Issue}
    (hT : i.issue_type ∈ (issuesOfCat issues i.category).map (fun kk => kk.issue_type)) :
    (specTypes (issuesOfCat issues i.category ++ [i])).Perm
      (specTypes (issuesOfCat issues i.category)) := by
  unfold specTypes
  rw [List.map_append, List.map_cons, List.map_nil]
  exact dedup_append_perm hT

lemma specCatDeduction_append_same (n : ℤ) (issues : List Issue) (i : Issue)
    (hex : ∃ j ∈ issues, j.category = i.category ∧ j.issue_type = i.issue_type)
    (hurl : i.url ∈ (((issuesOfCat issues i.category).filter
        (fun k => k.issue_type = i.issue_type)).map (fun k => k.url))) :
    specCatDeduction n (issues ++ [i]) i.category
      = specCatDeduction n issues i.category := by
  obtain ⟨j, hj, hjc, hjt⟩ := hex
  have hjcl : j ∈ issuesOfCat issues i.category := by
    unfold issuesOfCat
    rw [List.mem_filter]
    exact ⟨hj, by simpa using hjc⟩
  have hjtl : j ∈ (issuesOfCat issues i.category).filter
      (fun k => k.issue_type = i.issue_type) := by
    rw [List.mem_filter]
    exact ⟨hjcl, by simpa using hjt⟩
  have hTts : i.issue_type ∈ (issuesOfCat issues i.category).map (fun kk => kk.issue_type) :=
    List.mem_map.mpr ⟨j, hjcl, hjt⟩
  unfold specCatDeduction
  rw [issuesOfCat_append, if_pos rfl]
  rw [List.Perm.sum_eq (List.Perm.map _ (specTypes_append_perm hTts))]
  congr 1
  apply List.map_congr_left
  intro t ht
  by_cases hTt : i.issue_type = t
  · rw [← hTt]
    rw [specTypeDeduction_eq_typeDeduction, specTypeDeduction_eq_typeDeduction,
      typeFilter_append, if_pos rfl]
    exact typeDeduction_append_same_url (List.ne_nil_of_mem hjtl) hurl
  · exact specTypeDeduction_append_ne n _ i t hTt

lemma specHealthScore_append_dup (issues : List Issue) (n : ℤ) (i : Issue)
    (hex : ∃ j ∈ issues, j.category = i.category ∧ j.issue_type = i.issue_type)
    (hurl : i.url ∈ (((issuesOfCat issues i.category).filter
        (fun k => k.issue_type = i.issue_type)).map (fun k => k.url))) :
    specHealthScore (issues ++ [i]) n = specHealthScore issues n := by
  have hcat : ∀ c, specCatDeduction (max n 1) (issues ++ [i]) c
      = specCatDeduction (max n 1) issues c := by
    intro c
    by_cases hc : i.category = c
    · rw [← hc]
      exact specCatDeduction_append_same _ issues i hex hurl
    · exact specCatDeduction_append_ne _ issues i c hc
  unfold specHealthScore totalCappedDeduction specCappedDeduction
  simp only [hcat]

/-! ## Claim theorems: score monotonicity (C5) -/

/-- Claim C5 amended: appending a critical issue with the same
`(category, issue_type, url)` as an existing issue never changes the score;
appending a critical issue of an existing all-critical issue type for a URL
not previously affected by that type strictly increases the total capped
deduction — and hence strictly decreases the pre-rounding overall score and
never increases the returned score — provided additionally that the type's
distinct-URL count is below the page total (the affected-page ratio is not
yet capped at 1) and the category's deduction is below its weight.  The
original claim fails without the ratio proviso because `min 1 ·` freezes
the deduction, and the returned score may also be unchanged by rounding. -/
theorem score_monotonicity_amended :
    (∀ (issues : List Issue) (n : ℤ) (i j : Issue), j ∈ issues →
      i.category = j.category → i.issue_type = j.issue_type → i.url = j.url →
      i.severity = "critical" →
      compute_health_score (issues ++ [i]) n = compute_health_score issues n) ∧
    (∀ (issues : List Issue) (n : ℤ) (i : Issue) (w : ℚ),
      (i.category, w) ∈ SCORING_WEIGHTS →
      i.severity = "critical" →
      (∃ j ∈ issues, j.category = i.category ∧ j.issue_type = i.issue_type) →
      (∀ k ∈ issues, k.category = i.category → k.issue_type = i.issue_type →
        k.severity = "critical") →
      i.url ∉ (((issuesOfCat issues i.category).filter
        (fun k => k.issue_type = i.issue_type)).map (fun k => k.url)) →
      ((((((issuesOfCat issues i.category).filter
        (fun k => k.issue_type = i.issue_type)).map (fun k => k.url)).dedup).length : ℤ)
          < max n 1) →
      specCatDeduction (max n 1) issues i.category < w →
      totalCappedDeduction issues n < totalCappedDeduction (issues ++ [i]) n ∧
      (compute_health_score (issues ++ [i]) n).1 ≤ (compute_health_score issues n).1) := by
  constructor
  · intro issues n i j hj hic hit hiu hicrit
    rw [compute_health_score_eq_spec, compute_health_score_eq_spec]
    apply specHealthScore_append_dup
    · exact ⟨j, hj, hic.symm, hit.symm⟩
    · have hjcl : j ∈ issuesOfCat issues i.category := by
        unfold issuesOfCat
        rw [List.mem_filter]
        exact ⟨hj, by simpa using hic.symm⟩
      have hjtl : j ∈ (issuesOfCat issues i.category).filter
          (fun k => k.issue_type = i.issue_type) := by
        rw [List.mem_filter]
        exact ⟨hjcl, by simpa using hit.symm⟩
      exact List.mem_map.mpr ⟨j, hjtl, hiu.symm⟩
  · intro issues n i w hw hicrit hex hcrit hurl hlen hcap
    obtain ⟨j, hj, hjc, hjt⟩ := hex
    have hjcl : j ∈ issuesOfCat issues i.category := by
      unfold issuesOfCat
      rw [List.mem_filter]
      exact ⟨hj, by simpa using hjc⟩
    have hjtl : j ∈ (issuesOfCat issues i.category).filter
        (fun k => k.issue_type = i.issue_type) := by
      rw [List.mem_filter]
      exact ⟨hjcl, by simpa using hjt⟩
    have hTts : i.issue_type ∈ (issuesOfCat issues i.category).map (fun kk => kk.issue_type) :=
      List.mem_map.mpr ⟨j, hjcl, hjt⟩
    have hcritTl : ∀ k ∈ (issuesOfCat issues i.category).filter
        (fun kk => kk.issue_type = i.issue_type), k.severity = "critical" := by
      intro k hk
      rw [List.mem_filter] at hk
      obtain ⟨hk1, hk2⟩ := hk
      have hk1' := hk1
      unfold issuesOfCat at hk1'
      rw [List.mem_filter] at hk1'
      exact hcrit k hk1'.1 (by simpa using hk1'.2) (by simpa using hk2)
    have hCstrict : specCatDeduction (max n 1) issues i.category
        < specCatDeduction (max n 1) (issues ++ [i]) i.category := by
      unfold specCatDeduction
      rw [issuesOfCat_append, if_pos rfl]
      rw [List.Perm.sum_eq (List.Perm.map _ (specTypes_append_perm hTts))]
      refine map_sum_lt _ _ _ i.issue_type ?_ ?_ ?_
      · intro t ht
        by_cases hTt : i.issue_type = t
        · rw [← hTt]
          rw [specTypeDeduction_eq_typeDeduction, specTypeDeduction_eq_typeDeduction,
            typeFilter_append, if_pos rfl]
          exact (typeDeduction_append_new_url hcritTl (List.ne_nil_of_mem hjtl)
            hurl hlen).le
        · rw [specTypeDeduction_append_ne _ _ i t hTt]
      · unfold specTypes
        rw [List.mem_dedup]
        exact hTts
      · rw [specTypeDeduction_eq_typeDeduction, specTypeDeduction_eq_typeDeduction,
          typeFilter_append, if_pos rfl]
        exact typeDeduction_append_new_url hcritTl (List.ne_nil_of_mem hjtl) hurl hlen
    have hbase : specCappedDeduction (max n 1) issues i.category w
        < specCappedDeduction (max n 1) (issues ++ [i]) i.category w := by
      unfold specCappedDeduction
      rw [min_eq_left hcap.le]
      exact lt_min hCstrict hcap
    have htotal : totalCappedDeduction issues n < totalCappedDeduction (issues ++ [i]) n := by
      unfold totalCappedDeduction
      refine map_sum_lt SCORING_WEIGHTS _ _ (i.category, w) ?_ hw ?_
      · intro cw hcw
        by_cases hc : i.category = cw.1
        · unfold specCappedDeduction
          apply min_le_min _ le_rfl
          rw [← hc]
          exact hCstrict.le
        · unfold specCappedDeduction
          rw [specCatDeduction_append_ne _ issues i cw.1 hc]
      · exact hbase
    refine ⟨htotal, ?_⟩
    rw [compute_health_score_eq_spec, compute_health_score_eq_spec]
    show pyRound _ 1 ≤ pyRound _ 1
    apply pyRound_mono
    exact max_le_max le_rfl (min_le_min le_rfl (by linarith))

/-- Claim C5 counterexample: with total_pages = 1 and two distinct URLs
already affected by the critical Meta issue type, the affected-page ratio is
capped at 1, so appending the same critical type for the fresh URL `u3`
leaves the score unchanged even though the Meta category (deduction 12) is
well under its weight 15 — refuting the claimed strict decrease. -/
theorem score_strict_decrease_cex :
    specCatDeduction 1 [metaCritIssue "u1", metaCritIssue "u2"] "Meta" < 15 ∧
    (metaCritIssue "u3").url
      ∉ ([metaCritIssue "u1", metaCritIssue "u2"].map (fun k => k.url)) ∧
    compute_health_score
        ([metaCritIssue "u1", metaCritIssue "u2"] ++ [metaCritIssue "u3"]) 1
      = compute_health_score [metaCritIssue "u1", metaCritIssue "u2"] 1 := by
  refine ⟨?_, by decide, ?_⟩
  · simp +decide [specCatDeduction, issuesOfCat, specTypes, specTypeDeduction,
      metaCritIssue, typeWeight]
  · simp +decide [compute_health_score, SCORING_WEIGHTS, groupIssues, groupInsert,
      metaCritIssue, alistLookup, catDeduction, typeDeduction, typeWeight, bucketAppend,
      pyRound, roundHalfEven]

/-- Witness for the amended C5: a duplicate append leaves the score
untouched, and a fresh-URL append under the provisos strictly increases the
total capped deduction. -/
theorem score_monotonicity_amended_w :
    compute_health_score ([metaCritIssue "u1"] ++ [metaCritIssue "u1"]) 1
      = compute_health_score [metaCritIssue "u1"] 1 ∧
    totalCappedDeduction [metaCritIssue "u1"] 2
      < totalCappedDeduction ([metaCritIssue "u1"] ++ [metaCritIssue "u2"]) 2 :=
  ⟨score_monotonicity_amended.1 [metaCritIssue "u1"] 1 (metaCritIssue "u1")
      (metaCritIssue "u1") (by simp) rfl rfl rfl rfl,
   (score_monotonicity_amended.2 [metaCritIssue "u1"] 2 (metaCritIssue "u2") 15
      (by simp [metaCritIssue, SCORING_WEIGHTS]) rfl
      ⟨metaCritIssue "u1", by simp, rfl, rfl⟩
      (by decide) (by decide) (by decide)
      (by simp +decide [specCatDeduction, issuesOfCat, specTypes, specTypeDeduction,
            metaCritIssue, typeWeight]
          norm_num)).1⟩

/-! ## Claim theorems: unknown categories are scoring no-ops (C10) -/

lemma alistLookup_isSome_of_mem {β : Type} (m : List (String × β)) (c : String) (w : β)
    (h : (c, w) ∈ m) : (alistLookup m c).isSome := by
  induction m with
  | nil => cases h
  | cons e rest ih =>
    obtain ⟨k, v⟩ := e
    rcases List.mem_cons.mp h with he | hm
    · rw [alistLookup]
      have hkc : k = c := (Prod.ext_iff.mp he.symm).1
      rw [if_pos hkc]
      rfl
    · rw [alistLookup]
      by_cases hk : k = c
      · rw [if_pos hk]
        rfl
      · rw [if_neg hk]
        exact ih hm

/-- Claim C10: issues whose category is not one of the ten SCORING_WEIGHTS
keys have no effect on `compute_health_score` — removing them changes
neither the overall score nor the category-scores map — and the
category-scores map only ever contains the ten configured keys. -/
theorem unknown_categories_no_op (issues : List Issue) (n : ℤ) :
    compute_health_score
        (issues.filter (fun i => (alistLookup SCORING_WEIGHTS i.category).isSome)) n
      = compute_health_score issues n ∧
    (compute_health_score issues n).2.map Prod.fst = SCORING_WEIGHTS.map Prod.fst := by
  constructor
  · rw [compute_health_score_eq_spec, compute_health_score_eq_spec]
    have hcat : ∀ cw ∈ SCORING_WEIGHTS,
        specCatDeduction (max n 1)
          (issues.filter (fun i => (alistLookup SCORING_WEIGHTS i.category).isSome)) cw.1
        = specCatDeduction (max n 1) issues cw.1 := by
      intro cw hcw
      have hIoc : issuesOfCat
            (issues.filter (fun i => (alistLookup SCORING_WEIGHTS i.category).isSome)) cw.1
          = issuesOfCat issues cw.1 := by
        unfold issuesOfCat
        rw [List.filter_filter]
        apply List.filter_congr
        intro k hk
        by_cases hc : k.category = cw.1
        · have hk2 : (alistLookup SCORING_WEIGHTS cw.1).isSome = true :=
            alistLookup_isSome_of_mem _ cw.1 cw.2 hcw
          simp [hc, hk2]
        · simp [hc]
      unfold specCatDeduction
      rw [hIoc]
    have hsum : totalCappedDeduction
          (issues.filter (fun i => (alistLookup SCORING_WEIGHTS i.category).isSome)) n
        = totalCappedDeduction issues n := by
      unfold totalCappedDeduction specCappedDeduction
      congr 1
      apply List.map_congr_left
      intro cw hcw
      rw [hcat cw hcw]
    unfold specHealthScore
    rw [hsum]
    congr 1
    unfold specCappedDeduction
    apply List.map_congr_left
    intro cw hcw
    rw [hcat cw hcw]
  · by_cases hnil : issues = []
    · subst hnil
      rw [compute_health_score, if_pos rfl]
      simp
    · rw [compute_health_score, if_neg hnil]
      simp

/-! ## Claim theorems: redirect handling (C6, C7) -/

/-- Claim C6 (code-bug evidence): under a server whose every response is a
redirect with a fresh absolute Location, `fetch_page` exhausts the 10-hop
budget — 10 requests, a 10-hop chain — but the returned Page carries
`crawl_error = none` and `status_code = 0`: the hop-exhaustion path of
`_follow_redirects` returns `None` without storing any error, so the
"Too many redirects" classification claimed by the spec (and assumed by the
source's own comment "error already stored in page.crawl_error" and by its
unreachable `TooManyRedirects` handler) is never attached. -/
theorem too_many_redirects_unclassified :
    (fetch_page chainServer "http://c.example/s").crawl_error = none ∧
    (fetch_page chainServer "http://c.example/s").status_code = 0 ∧
    (followRedirects chainServer MAX_REDIRECTS "http://c.example/s" [] [] 0).requests_made
      = MAX_REDIRECTS ∧
    (fetch_page chainServer "http://c.example/s").redirect_chain.length = 10 :=
  ⟨rfl, rfl, rfl, rfl⟩

/-- Claim C7: redirect loops terminate.  On the `A→B→A` server, fetching A
issues 2 of the at-most-10 requests and yields the Page for A classified
`Redirect loop detected`; in general the loop issues at most `fuel` further
requests, and whenever the next redirect target repeats a URL already seen
in this fetch's chain or equals the current URL, the loop stops immediately
with exactly that classification and the redirect response as its result. -/
theorem redirect_loop_detected :
    ((fetch_page loopServerAB "http://a.example/A").url = "http://a.example/A" ∧
     (fetch_page loopServerAB "http://a.example/A").crawl_error
        = some "Redirect loop detected" ∧
     (fetch_page loopServerAB "http://a.example/A").redirect_chain
        = ["http://a.example/A", "http://a.example/B"] ∧
     (followRedirects loopServerAB MAX_REDIRECTS "http://a.example/A" [] [] 0).requests_made
        = 2) ∧
    (∀ (server : String → MResponse) (fuel : Nat) (url : String)
        (seen chain : List String) (count : Nat),
      (followRedirects server fuel url seen chain count).requests_made ≤ count + fuel) ∧
    (∀ (server : String → MResponse) (fuel : Nat) (url : String)
        (seen chain : List String) (count : Nat),
      respIsRedirect (server url) = true →
      ¬ headerGet (server url).headers "location" = "" →
      (pyUrljoin url (headerGet (server url).headers "location") ∈ seen ∨
        pyUrljoin url (headerGet (server url).headers "location") = url) →
      followRedirects server (fuel + 1) url seen chain count
        = { resp := some (server url), resp_url := url,
            redirect_chain := chain ++ [url],
            crawl_error := some "Redirect loop detected",
            error_status := some (server url).status_code,
            requests_made := count + 1 }) := by
  refine ⟨⟨rfl, rfl, rfl, rfl⟩, ?_, ?_⟩
  · intro server fuel
    induction fuel with
    | zero =>
      intro url seen chain count
      simp [followRedirects]
    | succ fuel ih =>
      intro url seen chain count
      simp only [followRedirects]
      by_cases h1 : respIsRedirect (server url) = true
      · rw [if_pos h1]
        by_cases h2 : headerGet (server url).headers "location" = ""
        · rw [if_pos h2]
          show count + 1 ≤ count + (fuel + 1)
          omega
        · rw [if_neg h2]
          by_cases h3 : pyUrljoin url (headerGet (server url).headers "location") ∈ seen ∨
              pyUrljoin url (headerGet (server url).headers "location") = url
          · rw [if_pos h3]
            show count + 1 ≤ count + (fuel + 1)
            omega
          · rw [if_neg h3]
            calc (followRedirects server fuel _ _ _ (count + 1)).requests_made
                ≤ (count + 1) + fuel := ih _ _ _ _
              _ = count + (fuel + 1) := by omega
      · rw [if_neg h1]
        show count + 1 ≤ count + (fuel + 1)
        omega
  · intro server fuel url seen chain count h1 h2 h3
    simp only [followRedirects]
    rw [if_pos h1, if_neg h2, if_pos h3]

/-- Witness for C7: the general hypotheses discharged at the concrete
looping server, one step before the loop is detected. -/
theorem redirect_loop_detected_w :
    followRedirects loopServerAB 9 "http://a.example/B" ["http://a.example/A"]
        ["http://a.example/A"] 1
      = { resp := some (loopServerAB "http://a.example/B"),
          resp_url := "http://a.example/B",
          redirect_chain := ["http://a.example/A", "http://a.example/B"],
          crawl_error := some "Redirect loop detected",
          error_status := some 302, requests_made := 2 } :=
  redirect_loop_detected.2.2 loopServerAB 8 "http://a.example/B"
    ["http://a.example/A"] ["http://a.example/A"] 1
    (by decide) (by decide) (by decide)

/-! ## Helper lemmas for the crawl invariant (C1, C2) -/

lemma mem_setAdd {s : List String} {x y : String} :
    x ∈ setAdd s y ↔ (x ∈ s ∨ x = y) := by
  unfold setAdd
  by_cases h : y ∈ s
  · rw [if_pos h]
    constructor
    · exact Or.inl
    · rintro (hx | rfl)
      · exact hx
      · exact h
  · rw [if_neg h]
    simp

lemma nodup_append_one {l : List String} {x : String} (h : l.Nodup) (hx : x ∉ l) :
    (l ++ [x]).Nodup :=
  ((List.perm_append_singleton x l).nodup_iff).mpr (List.nodup_cons.mpr ⟨hx, h⟩)

lemma enqueue_inv {cfg : CrawlConfig} {s : CrawlState} {norm : String} {d : Nat}
    (hinv : CrawlInv cfg s) (hnv : norm ∉ s.visited)
    (hnorm : ∃ x, norm = normalizeUrl x) :
    CrawlInv cfg
      { s with visited := setAdd s.visited norm,
               todo := s.todo ++ [(norm, d)],
               enqueued := s.enqueued ++ [norm] } := by
  have hne : norm ∉ s.enqueued := fun h => hnv ((hinv.visited_eq norm).mpr h)
  have hkeys : stateKeys
      { s with visited := setAdd s.visited norm,
               todo := s.todo ++ [(norm, d)],
               enqueued := s.enqueued ++ [norm] }
      = stateKeys s ++ [norm] := by
    unfold stateKeys
    simp [List.append_assoc]
  constructor
  · exact nodup_append_one hinv.enq_nodup hne
  · intro u
    rw [mem_setAdd, List.mem_append]
    constructor
    · rintro (h | rfl)
      · exact Or.inl ((hinv.visited_eq u).mp h)
      · exact Or.inr (List.mem_singleton_self _)
    · rintro (h | h)
      · exact Or.inl ((hinv.visited_eq u).mpr h)
      · exact Or.inr (by simpa using h)
  · rw [hkeys]
    exact nodup_append_one hinv.keys_nodup (fun h => hnv (hinv.keys_visited _ h))
  · rw [hkeys]
    intro u hu
    rw [mem_setAdd]
    rcases List.mem_append.mp hu with h | h
    · exact Or.inl (hinv.keys_visited u h)
    · exact Or.inr (by simpa using h)
  · exact hinv.cap_ok
  · intro u hu
    rcases List.mem_append.mp hu with h | h
    · exact hinv.enq_norm u h
    · obtain rfl : u = norm := by simpa using h
      exact hnorm

lemma seedNorms_cons (x : String) (xs : List String) :
    seedNorms (x :: xs)
      = if normalizeUrl x ≠ "" then normalizeUrl x :: seedNorms xs else seedNorms xs := by
  unfold seedNorms
  rw [List.map_cons, List.filter_cons]
  by_cases h : normalizeUrl x ≠ ""
  · simp [h]
  · simp [h]

lemma seedPhase_inv (cfg : CrawlConfig) :
    ∀ (seeds : List String) (s : CrawlState),
      CrawlInv cfg s →
      (∀ u ∈ seedNorms seeds, u ∉ s.visited) →
      (seedNorms seeds).Nodup →
      CrawlInv cfg (seedPhase seeds s) := by
  intro seeds
  induction seeds with
  | nil =>
    intro s h _ _
    exact h
  | cons x xs ih =>
    intro s hinv hdisj hnd
    rw [show seedPhase (x :: xs) s = seedPhase xs (
        let norm := normalizeUrl x
        if norm ≠ "" then
          { s with todo := s.todo ++ [(norm, 0)], visited := setAdd s.visited norm,
                   enqueued := s.enqueued ++ [norm] }
        else s) from rfl]
    by_cases hx : normalizeUrl x ≠ ""
    · rw [seedNorms_cons, if_pos hx] at hdisj hnd
      rw [if_pos hx]
      apply ih
      · exact enqueue_inv hinv (hdisj _ (List.mem_cons_self _ _)) ⟨x, rfl⟩
      · intro u hu
        show ¬ u ∈ setAdd s.visited (normalizeUrl x)
        rw [mem_setAdd]
        rintro (h | rfl)
        · exact hdisj u (List.mem_cons_of_mem _ hu) h
        · exact (List.nodup_cons.mp hnd).1 hu
      · exact (List.nodup_cons.mp hnd).2
    · rw [seedNorms_cons, if_neg hx] at hdisj hnd
      simp only [hx, ite_false]
      exact ih s hinv hdisj hnd

lemma submitLoop_spec (cfg : CrawlConfig) (npages : Nat) :
    ∀ (todo pending : List (String × Nat)),
      ∃ moved,
        todo = moved ++ (submitLoop cfg npages todo pending).1 ∧
        (submitLoop cfg npages todo pending).2 = pending ++ moved ∧
        (npages + pending.length ≤ cfg.max_pages →
          npages + (submitLoop cfg npages todo pending).2.length ≤ cfg.max_pages) := by
  intro todo
  induction todo with
  | nil =>
    intro pending
    exact ⟨[], by simp [submitLoop], by simp [submitLoop],
      fun h => by simpa [submitLoop] using h⟩
  | cons e rest ih =>
    intro pending
    obtain ⟨url, depth⟩ := e
    by_cases h1 : pending.length < cfg.max_workers * 2
    · by_cases h2 : npages + pending.length ≥ cfg.max_pages
      · refine ⟨[], ?_, ?_, ?_⟩ <;> simp [submitLoop, h1, h2]
      · obtain ⟨moved, hm1, hm2, hm3⟩ := ih (pending ++ [(url, depth)])
        have hstep : submitLoop cfg npages ((url, depth) :: rest) pending
            = submitLoop cfg npages rest (pending ++ [(url, depth)]) := by
          rw [submitLoop, if_pos h1, if_neg h2]
        refine ⟨(url, depth) :: moved, ?_, ?_, ?_⟩
        · rw [hstep, List.cons_append]
          exact congrArg _ hm1
        · rw [hstep, hm2, List.append_assoc]
          rfl
        · intro h
          rw [hstep]
          apply hm3
          rw [List.length_append]
          simp only [List.length_singleton]
          omega
    · refine ⟨[], ?_, ?_, ?_⟩ <;> simp [submitLoop, h1]

lemma submitPhase_inv (cfg : CrawlConfig) (s : CrawlState) (hinv : CrawlInv cfg s) :
    CrawlInv cfg (submitPhase cfg s) := by
  obtain ⟨moved, hm1, hm2, hm3⟩ := submitLoop_spec cfg s.pages.length s.todo s.pending
  have hkeys : stateKeys (submitPhase cfg s) = stateKeys s := by
    show s.pages.map Prod.fst
        ++ ((submitLoop cfg s.pages.length s.todo s.pending).2).map Prod.fst
        ++ ((submitLoop cfg s.pages.length s.todo s.pending).1).map Prod.fst
      = s.pages.map Prod.fst ++ s.pending.map Prod.fst ++ s.todo.map Prod.fst
    rw [hm2]
    conv_rhs => rw [hm1]
    simp [List.append_assoc]
  constructor
  · exact hinv.enq_nodup
  · exact hinv.visited_eq
  · rw [hkeys]
    exact hinv.keys_nodup
  · rw [hkeys]
    exact hinv.keys_visited
  · exact hm3 hinv.cap_ok
  · exact hinv.enq_norm

lemma dictInsert_fresh {m : List (String × CrawlPage)} {k : String} {v : CrawlPage}
    (h : k ∉ m.map Prod.fst) : dictInsert m k v = m ++ [(k, v)] := by
  induction m with
  | nil => rfl
  | cons e rest ih =>
    obtain ⟨k', v'⟩ := e
    have hk : ¬ k' = k := fun he => h (by simp [he])
    have h2 : k ∉ rest.map Prod.fst := fun hm => h (by simp [hm])
    show (if k' = k then (k, v) :: rest else (k', v') :: dictInsert rest k v) = _
    rw [if_neg hk, ih h2, List.cons_append]

lemma map_fst_filter_ne (pending : List (String × Nat)) (k : String) :
    (pending.filter (fun x => x.1 ≠ k)).map Prod.fst
      = (pending.map Prod.fst).filter (fun x => x ≠ k) := by
  induction pending with
  | nil => rfl
  | cons e rest ih =>
    rw [List.filter_cons, List.map_cons, List.filter_cons]
    by_cases h : e.1 = k
    · rw [if_neg (by simp [h]), if_neg (by simp [h])]
      exact ih
    · rw [if_pos (by simp [h]), if_pos (by simp [h]), List.map_cons, ih]

lemma harvestLinks_step (cfg : CrawlConfig) (d : Nat) (l : String) (ls : List String)
    (s : CrawlState) :
    harvestLinks cfg d (l :: ls) s
      = harvestLinks cfg d ls
          (if normalizeUrl l = "" then s
           else if normalizeUrl l ∉ s.visited
              ∧ s.pages.length + s.pending.length < cfg.max_pages then
             { s with visited := setAdd s.visited (normalizeUrl l),
                      todo := s.todo ++ [(normalizeUrl l, d + 1)],
                      enqueued := s.enqueued ++ [normalizeUrl l] }
           else s) := rfl

lemma harvestLinks_inv (cfg : CrawlConfig) (d : Nat) :
    ∀ (links : List String) (s : CrawlState), CrawlInv cfg s →
      CrawlInv cfg (harvestLinks cfg d links s) := by
  intro links
  induction links with
  | nil =>
    intro s h
    exact h
  | cons l ls ih =>
    intro s hinv
    rw [harvestLinks_step]
    by_cases h0 : normalizeUrl l = ""
    · rw [if_pos h0]
      exact ih s hinv
    · rw [if_neg h0]
      by_cases h1 : normalizeUrl l ∉ s.visited
          ∧ s.pages.length + s.pending.length < cfg.max_pages
      · rw [if_pos h1]
        exact ih _ (enqueue_inv hinv h1.1 ⟨l, rfl⟩)
      · rw [if_neg h1]
        exact ih s hinv

lemma harvestLinks_pending (cfg : CrawlConfig) (d : Nat) :
    ∀ (links : List String) (s : CrawlState),
      (harvestLinks cfg d links s).pending = s.pending := by
  intro links
  induction links with
  | nil =>
    intro s
    rfl
  | cons l ls ih =>
    intro s
    rw [harvestLinks_step]
    by_cases h0 : normalizeUrl l = ""
    · rw [if_pos h0, ih]
    · rw [if_neg h0]
      by_cases h1 : normalizeUrl l ∉ s.visited
          ∧ s.pages.length + s.pending.length < cfg.max_pages
      · rw [if_pos h1, ih]
      · rw [if_neg h1, ih]

lemma processOne_pending (links exts : String → List String) (cfg : CrawlConfig)
    (e : String × Nat) (s : CrawlState) :
    (processOne links exts cfg e s).pending
      = s.pending.filter (fun x => x.1 ≠ e.1) := by
  show (harvestLinks cfg e.2 (links e.1) _).pending = _
  rw [harvestLinks_pending]

lemma erase_eq_filter_decide {l : List String} (h : l.Nodup) (a : String) :
    l.erase a = l.filter (fun x => decide (x ≠ a)) := by
  rw [h.erase_eq_filter]
  apply List.filter_congr
  intro x _
  by_cases hx : x = a
  · subst hx
    simp
  · simp [hx]

lemma popInsert_inv (cfg : CrawlConfig) (e : String × Nat) (pg : CrawlPage)
    (s : CrawlState) (hinv : CrawlInv cfg s) (he : e ∈ s.pending) :
    CrawlInv cfg { s with pending := s.pending.filter (fun x => x.1 ≠ e.1),
                          pages := dictInsert s.pages e.1 pg } := by
  have hpk : e.1 ∈ s.pending.map Prod.fst := List.mem_map.mpr ⟨e, he, rfl⟩
  have hnd := hinv.keys_nodup
  unfold stateKeys at hnd
  have hAB : (s.pages.map Prod.fst ++ s.pending.map Prod.fst).Nodup :=
    (List.nodup_append.mp hnd).1
  have hB : (s.pending.map Prod.fst).Nodup := (List.nodup_append.mp hAB).2.1
  have hdisjAB : (s.pages.map Prod.fst).Disjoint (s.pending.map Prod.fst) :=
    (List.nodup_append.mp hAB).2.2
  have he1A : e.1 ∉ s.pages.map Prod.fst := fun hm => hdisjAB hm hpk
  have hkeys : stateKeys
      { s with pending := s.pending.filter (fun x => x.1 ≠ e.1),
               pages := dictInsert s.pages e.1 pg }
      = ((s.pages.map Prod.fst ++ [e.1])
          ++ (s.pending.map Prod.fst).erase e.1) ++ s.todo.map Prod.fst := by
    show (dictInsert s.pages e.1 pg).map Prod.fst
        ++ (s.pending.filter (fun x => x.1 ≠ e.1)).map Prod.fst
        ++ s.todo.map Prod.fst = _
    rw [dictInsert_fresh he1A, List.map_append, map_fst_filter_ne,
      ← erase_eq_filter_decide hB e.1]
    rfl
  have hperm : List.Perm (((s.pages.map Prod.fst ++ [e.1])
        ++ (s.pending.map Prod.fst).erase e.1) ++ s.todo.map Prod.fst)
      ((s.pages.map Prod.fst ++ s.pending.map Prod.fst) ++ s.todo.map Prod.fst) := by
    apply List.Perm.append_right
    rw [List.append_assoc]
    apply List.Perm.append_left
    exact (List.perm_cons_erase hpk).symm
  have hlen : (s.pending.filter (fun x => x.1 ≠ e.1)).length + 1 = s.pending.length := by
    have h1 : (s.pending.filter (fun x => x.1 ≠ e.1)).length
        = ((s.pending.filter (fun x => x.1 ≠ e.1)).map Prod.fst).length :=
      (List.length_map _ _).symm
    rw [h1, map_fst_filter_ne, ← erase_eq_filter_decide hB e.1,
      List.length_erase_of_mem hpk, ← List.length_map s.pending Prod.fst]
    have h2 : 1 ≤ (s.pending.map Prod.fst).length :=
      List.length_pos.mpr (List.ne_nil_of_mem hpk)
    omega
  constructor
  · exact hinv.enq_nodup
  · exact hinv.visited_eq
  · rw [hkeys]
    exact (hperm.nodup_iff).mpr hinv.keys_nodup
  · intro u hu
    rw [hkeys] at hu
    exact hinv.keys_visited u (hperm.mem_iff.mp hu)
  · show (dictInsert s.pages e.1 pg).length
        + (s.pending.filter (fun x => x.1 ≠ e.1)).length ≤ cfg.max_pages
    rw [dictInsert_fresh he1A, List.length_append]
    have := hinv.cap_ok
    simp only [List.length_singleton]
    omega
  · exact hinv.enq_norm

lemma processOne_inv (links exts : String → List String) (cfg : CrawlConfig)
    (e : String × Nat) (s : CrawlState) (hinv : CrawlInv cfg s) (he : e ∈ s.pending) :
    CrawlInv cfg (processOne links exts cfg e s) := by
  have hinv₂ := popInsert_inv cfg e
    { url := e.1, depth := e.2, internal_links := links e.1, external_links := exts e.1 }
    s hinv he
  have h3 := harvestLinks_inv cfg e.2 (links e.1) _ hinv₂
  exact ⟨h3.enq_nodup, h3.visited_eq, h3.keys_nodup, h3.keys_visited, h3.cap_ok, h3.enq_norm⟩

lemma processCompleted_inv (links exts : String → List String) (cfg : CrawlConfig) :
    ∀ (completed : List (String × Nat)) (s : CrawlState),
      CrawlInv cfg s →
      (∀ x ∈ completed, x ∈ s.pending) →
      ((completed.map Prod.fst).Nodup) →
      CrawlInv cfg (processCompleted links exts cfg completed s) := by
  intro completed
  induction completed with
  | nil =>
    intro s h _ _
    exact h
  | cons e es ih =>
    intro s hinv hsub hnd
    show CrawlInv cfg (processCompleted links exts cfg es (processOne links exts cfg e s))
    apply ih
    · exact processOne_inv links exts cfg e s hinv (hsub e (List.mem_cons_self e es))
    · intro x hx
      rw [processOne_pending, List.mem_filter]
      refine ⟨hsub x (List.mem_cons_of_mem _ hx), ?_⟩
      have hx1 : x.1 ∈ es.map Prod.fst := List.mem_map.mpr ⟨x, hx, rfl⟩
      have he1 : e.1 ∉ es.map Prod.fst := (List.nodup_cons.mp hnd).1
      simp only [ne_eq, decide_eq_true_eq]
      intro hxe
      exact he1 (hxe ▸ hx1)
    · exact (List.nodup_cons.mp hnd).2

lemma pendingK_nodup {cfg : CrawlConfig} {s : CrawlState} (h : CrawlInv cfg s) :
    (s.pending.map Prod.fst).Nodup := by
  have hnd := h.keys_nodup
  unfold stateKeys at hnd
  exact (List.nodup_append.mp ((List.nodup_append.mp hnd).1)).2.1

lemma crawlLoop_inv (links exts : String → List String) (cfg : CrawlConfig)
    (oracle : Nat → String → Bool) :
    ∀ (fuel : Nat) (s : CrawlState), CrawlInv cfg s →
      CrawlInv cfg (crawlLoop links exts cfg oracle fuel s) := by
  intro fuel
  induction fuel with
  | zero =>
    intro s h
    exact h
  | succ fuel ih =>
    intro s hinv
    simp only [crawlLoop]
    have h1 : CrawlInv cfg (submitPhase cfg s) := submitPhase_inv cfg s hinv
    by_cases hp : (submitPhase cfg s).pending = []
    · rw [if_pos hp]
      exact h1
    · rw [if_neg hp]
      have h2 : CrawlInv cfg (processCompleted links exts cfg
          ((submitPhase cfg s).pending.filter (fun e => oracle fuel e.1))
          (submitPhase cfg s)) := by
        apply processCompleted_inv
        · exact h1
        · intro x hx
          exact (List.mem_filter.mp hx).1
        · exact (pendingK_nodup h1).sublist
            (List.Sublist.map Prod.fst (List.filter_sublist _))
      by_cases hq : (processCompleted links exts cfg
            ((submitPhase cfg s).pending.filter (fun e => oracle fuel e.1))
            (submitPhase cfg s)).todo = []
          ∧ (processCompleted links exts cfg
            ((submitPhase cfg s).pending.filter (fun e => oracle fuel e.1))
            (submitPhase cfg s)).pending = []
      · rw [if_pos hq]
        exact h2
      · rw [if_neg hq]
        exact ih _ h2

lemma initial_inv (cfg : CrawlConfig) : CrawlInv cfg initialCrawlState := by
  constructor
  · exact List.nodup_nil
  · intro u
    exact Iff.rfl
  · exact List.nodup_nil
  · intro u hu
    cases hu
  · exact Nat.zero_le _
  · intro u hu
    cases hu

lemma crawlInternal_inv (links exts : String → List String) (cfg : CrawlConfig)
    (oracle : Nat → String → Bool) (fuel : Nat) (seeds : List String)
    (hseeds : (seedNorms seeds).Nodup) :
    CrawlInv cfg (crawlInternal links exts cfg oracle fuel seeds) := by
  apply crawlLoop_inv
  apply seedPhase_inv
  · exact initial_inv cfg
  · intro u hu hv
    cases hv
  · exact hseeds

/-- Claim C1: at-most-once visitation.  For every crawl whose distinct seed
normalisations are duplicate-free (as `crawl` guarantees), the page map
returned by `_crawl_internal` has no two equal keys; the ghost log of every
URL ever appended to the `todo` frontier is duplicate-free, so a URL, once
enqueued, is never appended to the frontier again; the visited set holds
exactly the ever-enqueued URLs (they are updated together under the lock),
so in particular a URL in `visited` can never re-enter the frontier; and
every enqueued URL is an output of `_normalize_url`. -/
theorem crawl_at_most_once_per_url (links exts : String → List String)
    (cfg : CrawlConfig) (oracle : Nat → String → Bool) (fuel : Nat)
    (seeds : List String) (hseeds : (seedNorms seeds).Nodup) :
    ((crawlInternal links exts cfg oracle fuel seeds).pages.map Prod.fst).Nodup
    ∧ (crawlInternal links exts cfg oracle fuel seeds).enqueued.Nodup
    ∧ (∀ u, u ∈ (crawlInternal links exts cfg oracle fuel seeds).visited
        ↔ u ∈ (crawlInternal links exts cfg oracle fuel seeds).enqueued)
    ∧ (∀ u ∈ (crawlInternal links exts cfg oracle fuel seeds).enqueued,
        ∃ x, u = normalizeUrl x) := by
  have h := crawlInternal_inv links exts cfg oracle fuel seeds hseeds
  refine ⟨?_, h.enq_nodup, h.visited_eq, h.enq_norm⟩
  have hk := h.keys_nodup
  unfold stateKeys at hk
  exact (List.nodup_append.mp (List.nodup_append.mp hk).1).1

/-- Witness for C1: the page-cap scenario crawl satisfies the hypothesis
(one seed, duplicate-free normalisations) and its page map has
duplicate-free keys. -/
theorem crawl_at_most_once_per_url_w :
    (seedNorms ["http://site.example/"]).Nodup
    ∧ ((crawlInternal scenarioLinks (fun _ => []) scenarioCfg (fun _ _ => true) 10
        ["http://site.example/"]).pages.map Prod.fst).Nodup :=
  ⟨by decide,
   (crawl_at_most_once_per_url scenarioLinks (fun _ => []) scenarioCfg
     (fun _ _ => true) 10 ["http://site.example/"] (by decide)).1⟩

/-- Claim C2: page-cap enforcement.  (1) Every crawl with duplicate-free
seed normalisations ends with completed pages plus in-flight fetches within
`max_pages`; (2) the submission phase and (3) the handling of one completed
future (store page + harvest links, the frontier admission checking
capacity together with the visited check) each preserve that bound from any
state satisfying the loop invariant, so it holds at every step of the loop;
and (4) the concrete scenario — `max_pages = 3`, a start page linking to
five distinct internal pages — yields exactly 3 pages with the remaining
discovered URLs left on the frontier, unfetched. -/
theorem crawl_page_cap :
    (∀ (links exts : String → List String) (cfg : CrawlConfig)
        (oracle : Nat → String → Bool) (fuel : Nat) (seeds : List String),
      (seedNorms seeds).Nodup →
      (crawlInternal links exts cfg oracle fuel seeds).pages.length
        + (crawlInternal links exts cfg oracle fuel seeds).pending.length
        ≤ cfg.max_pages)
    ∧ (∀ (cfg : CrawlConfig) (s : CrawlState), CrawlInv cfg s →
        (submitPhase cfg s).pages.length + (submitPhase cfg s).pending.length
          ≤ cfg.max_pages)
    ∧ (∀ (links exts : String → List String) (cfg : CrawlConfig)
        (e : String × Nat) (s : CrawlState), CrawlInv cfg s → e ∈ s.pending →
        (processOne links exts cfg e s).pages.length
          + (processOne links exts cfg e s).pending.length ≤ cfg.max_pages)
    ∧ scenarioResult.pages.length = 3
    ∧ scenarioResult.todo ≠ [] := by
  refine ⟨?_, ?_, ?_, by decide, by decide⟩
  · intro links exts cfg oracle fuel seeds hseeds
    exact (crawlInternal_inv links exts cfg oracle fuel seeds hseeds).cap_ok
  · intro cfg s hinv
    exact (submitPhase_inv cfg s hinv).cap_ok
  · intro links exts cfg e s hinv he
    exact (processOne_inv links exts cfg e s hinv he).cap_ok

/-- Witness for C2: the scenario crawl discharges the seed hypothesis and
indeed respects the cap `3`. -/
theorem crawl_page_cap_w :
    (seedNorms ["http://site.example/"]).Nodup
    ∧ ((crawlInternal scenarioLinks (fun _ => []) scenarioCfg (fun _ _ => true) 10
        ["http://site.example/"]).pages.length
      + (crawlInternal scenarioLinks (fun _ => []) scenarioCfg (fun _ _ => true) 10
        ["http://site.example/"]).pending.length ≤ scenarioCfg.max_pages) :=
  ⟨by decide,
   crawl_page_cap.1 scenarioLinks (fun _ => []) scenarioCfg (fun _ _ => true) 10
     ["http://site.example/"] (by decide)⟩

end SiteAudit
